import Mathlib

/-!
# Verification of the software-rasterizer core

Shallow embedding of the rasterizer's core algorithms, translated from the
Rust sources:

* `framework/src/util/barycentric.rs` — barycentric coordinates;
* `framework/src/util/triangle.rs`    — bounding-box triangle rasterizer;
* `framework/src/util/bresenham.rs`   — Bresenham line tracer;
* `framework/src/bitmap.rs`           — pixel buffer (`draw_pixel`,
  `draw_bitmap`, `draw_line`, `iter_pixels`);
* `framework/src/frame.rs`            — framebuffer pixel iteration;
* `src/draw.rs`                       — depth-buffered triangle draw.

Modelling conventions:

* Machine integers (`i32`, `isize`) are modelled as `ℤ`; `usize` quantities
  that are only ever small and non-negative are modelled as `ℕ`.
* `f32` values are modelled as exact rationals `ℚ`.  All the decisive
  float computations in this code base are sign-exact: products and dot
  products are computed in integer arithmetic before conversion, the only
  float operations are a correctly-rounded division and comparisons against
  zero, and rounding never moves a value across zero.  The one place where
  IEEE semantics genuinely matter — division by a zero denominator in
  `barycentric`, which produces non-finite (NaN) weights — is modelled by
  returning `Option`: `none` stands for the all-NaN result triple, and any
  comparison `NaN ≥ 0` is `false`.
-/

/-- 2-component vector (`vek`'s `Vec2`). -/
structure Vec2 (α : Type) where
  x : α
  y : α
deriving DecidableEq, Repr

/-- 3-component vector (`vek`'s `Vec3`). -/
structure Vec3 (α : Type) where
  x : α
  y : α
  z : α
deriving DecidableEq, Repr

/-- Width/height extent (`vek`'s `Extent2`). -/
structure Extent2 (α : Type) where
  w : α
  h : α
deriving DecidableEq, Repr

/-- `Vec2::yx`: the vector with swapped components. -/
def Vec2.yx {α : Type} (v : Vec2 α) : Vec2 α := ⟨v.y, v.x⟩

/-- Componentwise subtraction of 2-vectors. -/
instance {α : Type} [Sub α] : Sub (Vec2 α) := ⟨fun a b => ⟨a.x - b.x, a.y - b.y⟩⟩

/-- `Vec2::dot`. -/
def Vec2.dot {α : Type} [Mul α] [Add α] (a b : Vec2 α) : α :=
  a.x * b.x + a.y * b.y

@[simp] theorem Vec2.mk_x {α : Type} (a b : α) : (Vec2.mk a b).x = a := rfl

@[simp] theorem Vec2.mk_y {α : Type} (a b : α) : (Vec2.mk a b).y = b := rfl

theorem Vec2.eq_of_xy {α : Type} {v : Vec2 α} {a b : α} (h1 : v.x = a) (h2 : v.y = b) :
    v = ⟨a, b⟩ := by
  cases v
  dsimp only at h1 h2
  rw [h1, h2]

@[simp] theorem Vec2.sub_x {α : Type} [Sub α] (a b : Vec2 α) : (a - b).x = a.x - b.x := rfl

@[simp] theorem Vec2.sub_y {α : Type} [Sub α] (a b : Vec2 α) : (a - b).y = a.y - b.y := rfl

/-- A `Vec2 ℚ` as a point of the plane `ℚ × ℚ` (a `ℚ`-module), so that
Mathlib's affine notion of collinearity applies. -/
def Vec2.toPair (v : Vec2 ℚ) : ℚ × ℚ := (v.x, v.y)

/-- A `Vec2 ℤ` converted to rationals (the `i32 → f32` conversion; exact for
the magnitudes this code works with). -/
def Vec2.toQ (v : Vec2 ℤ) : Vec2 ℚ := ⟨(v.x : ℚ), (v.y : ℚ)⟩

/-- `Vec3::xy`. -/
def Vec3.xy (v : Vec3 ℚ) : Vec2 ℚ := ⟨v.x, v.y⟩

namespace Rasterizer

/-!
## Barycentric coordinates — `framework/src/util/barycentric.rs`

```rust
pub fn barycentric<T, V: Float>(p: Vec2<T>, [a, b, c]: [Vec2<T>; 3]) -> Vec3<V> {
    let ba = b - a;
    let ca = c - a;
    let pa = p - a;
    let d00 = ba.dot(ba);
    let d01 = ba.dot(ca);
    let d11 = ca.dot(ca);
    let d20 = pa.dot(ba);
    let d21 = pa.dot(ca);
    let den: V = (d00 * d11 - d01 * d01).into();
    let v: V = (d11 * d20 - d01 * d21).into() / den;
    let w: V = (d00 * d21 - d01 * d20).into() / den;
    let u: V = V::one() - v - w;
    Vec3::new(u, v, w)
}
```

All dot products are computed exactly in `T`; only the final divisions
happen in the float type `V`.  When `den = 0` the numerators are provably
zero as well (see `baryNum_eq_zero_of_den_eq_zero`), so the divisions are
`0.0 / 0.0 = NaN` and the whole result triple is non-finite; this is the
`none` case of the model.
-/

/-- The denominator `d00 * d11 - d01 * d01` of `barycentric`. -/
def baryDen (p : Vec2 ℚ) (a b c : Vec2 ℚ) : ℚ :=
  let ba := b - a
  let ca := c - a
  let _pa := p - a
  ba.dot ba * ca.dot ca - ba.dot ca * ba.dot ca

/-- `barycentric`, with `none` standing for the non-finite (NaN) result
triple produced by the unguarded division when the denominator is zero. -/
def barycentric (p : Vec2 ℚ) (a b c : Vec2 ℚ) : Option (Vec3 ℚ) :=
  let ba := b - a
  let ca := c - a
  let pa := p - a
  let d00 := ba.dot ba
  let d01 := ba.dot ca
  let d11 := ca.dot ca
  let d20 := pa.dot ba
  let d21 := pa.dot ca
  let den := d00 * d11 - d01 * d01
  if den = 0 then
    none
  else
    let v := (d11 * d20 - d01 * d21) / den
    let w := (d00 * d21 - d01 * d20) / den
    let u := 1 - v - w
    some ⟨u, v, w⟩

/-- 2D cross product (signed area of the parallelogram). -/
def cross2 (u v : Vec2 ℚ) : ℚ := u.x * v.y - u.y * v.x

/-- Lagrange's identity in 2D: the barycentric denominator is the square of
the cross product of the two edge vectors. -/
theorem baryDen_eq_sq_cross (p a b c : Vec2 ℚ) :
    baryDen p a b c = cross2 (b - a) (c - a) ^ 2 := by
  simp only [baryDen, cross2, Vec2.dot, Sub.sub]
  ring

/-- Three points of the plane are collinear (in the affine sense, which
includes every case with repeated points) iff the cross product of the two
edge vectors vanishes. -/
theorem collinear_iff_cross2_eq_zero (a b c : Vec2 ℚ) :
    Collinear ℚ {Vec2.toPair a, Vec2.toPair b, Vec2.toPair c} ↔
      cross2 (b - a) (c - a) = 0 := by
  rw [collinear_iff_exists_forall_eq_smul_vadd]
  constructor
  · rintro ⟨p₀, v, hv⟩
    obtain ⟨ra, hra⟩ := hv a.toPair (by simp)
    obtain ⟨rb, hrb⟩ := hv b.toPair (by simp)
    obtain ⟨rc, hrc⟩ := hv c.toPair (by simp)
    obtain ⟨hax, hay⟩ : a.x = ra * v.1 + p₀.1 ∧ a.y = ra * v.2 + p₀.2 := by
      simpa [Vec2.toPair, Prod.ext_iff] using hra
    obtain ⟨hbx, hby⟩ : b.x = rb * v.1 + p₀.1 ∧ b.y = rb * v.2 + p₀.2 := by
      simpa [Vec2.toPair, Prod.ext_iff] using hrb
    obtain ⟨hcx, hcy⟩ : c.x = rc * v.1 + p₀.1 ∧ c.y = rc * v.2 + p₀.2 := by
      simpa [Vec2.toPair, Prod.ext_iff] using hrc
    simp only [cross2, Vec2.sub_x, Vec2.sub_y]
    rw [hax, hay, hbx, hby, hcx, hcy]
    ring
  · intro h
    simp only [cross2, Vec2.sub_x, Vec2.sub_y] at h
    by_cases hba : b.x - a.x = 0 ∧ b.y - a.y = 0
    · refine ⟨a.toPair, (c.x - a.x, c.y - a.y), ?_⟩
      rintro p hp
      simp only [Set.mem_insert_iff, Set.mem_singleton_iff] at hp
      obtain ⟨h1, h2⟩ := hba
      rcases hp with rfl | rfl | rfl
      · exact ⟨0, by simp [Vec2.toPair]⟩
      · refine ⟨0, ?_⟩
        simp only [Vec2.toPair, zero_smul, zero_vadd, Prod.mk.injEq]
        constructor <;> linarith
      · refine ⟨1, ?_⟩
        simp only [Vec2.toPair, one_smul, vadd_eq_add, Prod.mk_add_mk, Prod.mk.injEq]
        constructor <;> ring
    · refine ⟨a.toPair, (b.x - a.x, b.y - a.y), ?_⟩
      rintro p hp
      simp only [Set.mem_insert_iff, Set.mem_singleton_iff] at hp
      rcases hp with rfl | rfl | rfl
      · exact ⟨0, by simp [Vec2.toPair]⟩
      · refine ⟨1, ?_⟩
        simp only [Vec2.toPair, one_smul, vadd_eq_add, Prod.mk_add_mk, Prod.mk.injEq]
        constructor <;> ring
      · by_cases hx : b.x - a.x = 0
        · have hy : b.y - a.y ≠ 0 := fun hy => hba ⟨hx, hy⟩
          have hcx : c.x - a.x = 0 := by
            rcases mul_eq_zero.mp
                (by linear_combination -h + (c.y - a.y) * hx : (b.y - a.y) * (c.x - a.x) = 0)
              with h' | h'
            · exact absurd h' hy
            · exact h'
          refine ⟨(c.y - a.y) / (b.y - a.y), ?_⟩
          simp only [Vec2.toPair, vadd_eq_add, Prod.smul_mk, smul_eq_mul, Prod.mk_add_mk,
            Prod.mk.injEq]
          constructor
          · rw [hx, mul_zero, zero_add]; linarith
          · rw [div_mul_cancel₀ _ hy]; ring
        · refine ⟨(c.x - a.x) / (b.x - a.x), ?_⟩
          simp only [Vec2.toPair, vadd_eq_add, Prod.smul_mk, smul_eq_mul, Prod.mk_add_mk,
            Prod.mk.injEq]
          constructor
          · field_simp
          · field_simp
            linear_combination h

theorem baryDen_def (p a b c : Vec2 ℚ) :
    baryDen p a b c =
      (b - a).dot (b - a) * (c - a).dot (c - a) - (b - a).dot (c - a) * (b - a).dot (c - a) :=
  rfl

/-- When the denominator is non-zero, `barycentric` returns `some` triple,
whose `v`/`w` components are exactly the Cramer's-rule quotients. -/
theorem barycentric_of_den_ne_zero (p a b c : Vec2 ℚ) (h : baryDen p a b c ≠ 0) :
    barycentric p a b c =
      some ⟨1 - ((c - a).dot (c - a) * (p - a).dot (b - a) -
                  (b - a).dot (c - a) * (p - a).dot (c - a)) / baryDen p a b c -
              ((b - a).dot (b - a) * (p - a).dot (c - a) -
                  (b - a).dot (c - a) * (p - a).dot (b - a)) / baryDen p a b c,
            ((c - a).dot (c - a) * (p - a).dot (b - a) -
                (b - a).dot (c - a) * (p - a).dot (c - a)) / baryDen p a b c,
            ((b - a).dot (b - a) * (p - a).dot (c - a) -
                (b - a).dot (c - a) * (p - a).dot (b - a)) / baryDen p a b c⟩ := by
  rw [baryDen_def] at h ⊢
  simp only [barycentric, if_neg h]

/-- The triple returned by `barycentric` is an affine representation of `p`
over the triangle's vertices (valid whenever the denominator is non-zero:
in 2D the normal-equation solution is exact). -/
theorem barycentric_affine_repr (p a b c : Vec2 ℚ) (h : baryDen p a b c ≠ 0)
    (t : Vec3 ℚ) (ht : barycentric p a b c = some t) :
    t.x + t.y + t.z = 1 ∧
      p.x = t.x * a.x + t.y * b.x + t.z * c.x ∧
      p.y = t.x * a.y + t.y * b.y + t.z * c.y := by
  rw [barycentric_of_den_ne_zero p a b c h] at ht
  obtain rfl : t = _ := (Option.some_injective _ ht).symm
  refine ⟨by ring, ?_, ?_⟩
  · simp only [baryDen_def, Vec2.dot, Vec2.sub_x, Vec2.sub_y] at h ⊢
    field_simp
    ring
  · simp only [baryDen_def, Vec2.dot, Vec2.sub_x, Vec2.sub_y] at h ⊢
    field_simp
    ring

theorem cross2_ne_zero_of_den_ne_zero (p a b c : Vec2 ℚ) (h : baryDen p a b c ≠ 0) :
    cross2 (b - a) (c - a) ≠ 0 := by
  intro hc
  exact h (by rw [baryDen_eq_sq_cross, hc]; ring)

/-- Uniqueness of affine (barycentric) representations over a
non-degenerate triangle. -/
theorem barycentric_affine_unique (p a b c : Vec2 ℚ) (h : baryDen p a b c ≠ 0)
    (t : Vec3 ℚ) (ht : barycentric p a b c = some t)
    (α β γ : ℚ) (hsum : α + β + γ = 1)
    (hx : p.x = α * a.x + β * b.x + γ * c.x)
    (hy : p.y = α * a.y + β * b.y + γ * c.y) :
    α = t.x ∧ β = t.y ∧ γ = t.z := by
  obtain ⟨hsum', hx', hy'⟩ := barycentric_affine_repr p a b c h t ht
  have hcross := cross2_ne_zero_of_den_ne_zero p a b c h
  simp only [cross2, Vec2.sub_x, Vec2.sub_y] at hcross
  have e1 : (β - t.y) * (b.x - a.x) + (γ - t.z) * (c.x - a.x) = 0 := by
    have hα : α = 1 - β - γ := by linarith
    have hα' : t.x = 1 - t.y - t.z := by linarith
    rw [hα] at hx
    rw [hα'] at hx'
    linarith [hx, hx']
  have e2 : (β - t.y) * (b.y - a.y) + (γ - t.z) * (c.y - a.y) = 0 := by
    have hα : α = 1 - β - γ := by linarith
    have hα' : t.x = 1 - t.y - t.z := by linarith
    rw [hα] at hy
    rw [hα'] at hy'
    linarith [hy, hy']
  have hβ : β - t.y = 0 := by
    rcases mul_eq_zero.mp
        (by linear_combination (c.y - a.y) * e1 - (c.x - a.x) * e2 :
          (β - t.y) * ((b.x - a.x) * (c.y - a.y) - (b.y - a.y) * (c.x - a.x)) = 0)
      with h' | h'
    · exact h'
    · exact absurd h' hcross
  have hγ : γ - t.z = 0 := by
    rcases mul_eq_zero.mp
        (by linear_combination (b.y - a.y) * e1 - (b.x - a.x) * e2 :
          (γ - t.z) * ((b.y - a.y) * (c.x - a.x) - (b.x - a.x) * (c.y - a.y)) = 0)
      with h' | h'
    · exact h'
    · exact absurd (by linarith [h'] : (b.x - a.x) * (c.y - a.y) - (b.y - a.y) * (c.x - a.x) = 0)
        hcross
  refine ⟨by linarith, by linarith, by linarith⟩

/-- `p` lies strictly inside the triangle `(a, b, c)`: it is a positive
affine combination of the three vertices. -/
def strictInside (p a b c : Vec2 ℚ) : Prop :=
  ∃ α β γ : ℚ, 0 < α ∧ 0 < β ∧ 0 < γ ∧ α + β + γ = 1 ∧
    p.x = α * a.x + β * b.x + γ * c.x ∧ p.y = α * a.y + β * b.y + γ * c.y

/-- `p` lies strictly outside the triangle `(a, b, c)`: it is not in the
closed convex hull of the three vertices. -/
def strictOutside (p a b c : Vec2 ℚ) : Prop :=
  ¬ ∃ α β γ : ℚ, 0 ≤ α ∧ 0 ≤ β ∧ 0 ≤ γ ∧ α + β + γ = 1 ∧
      p.x = α * a.x + β * b.x + γ * c.x ∧ p.y = α * a.y + β * b.y + γ * c.y

/-- C5: for every non-degenerate triangle `(a, b, c)` (non-zero denominator
`d00*d11 - d01*d01`) and every point `p`, the triple `(u, v, w)` returned by
`barycentric` satisfies `u + v + w = 1` (exactly, in the rational model),
with `v` and `w` computed by the stated Cramer's-rule formula; if `p` is
strictly inside the triangle then `u, v, w` are all `≥ 0`, and if `p` is
strictly outside then at least one of `u, v, w` is negative. -/
theorem barycentric_partition (p a b c : Vec2 ℚ) (h : baryDen p a b c ≠ 0) :
    ∃ t : Vec3 ℚ, barycentric p a b c = some t ∧
      t.x + t.y + t.z = 1 ∧
      t.y = ((c - a).dot (c - a) * (p - a).dot (b - a) -
              (b - a).dot (c - a) * (p - a).dot (c - a)) / baryDen p a b c ∧
      t.z = ((b - a).dot (b - a) * (p - a).dot (c - a) -
              (b - a).dot (c - a) * (p - a).dot (b - a)) / baryDen p a b c ∧
      (strictInside p a b c → 0 ≤ t.x ∧ 0 ≤ t.y ∧ 0 ≤ t.z) ∧
      (strictOutside p a b c → t.x < 0 ∨ t.y < 0 ∨ t.z < 0) := by
  refine ⟨_, barycentric_of_den_ne_zero p a b c h, by ring, rfl, rfl, ?_, ?_⟩
  · rintro ⟨α, β, γ, hα, hβ, hγ, hsum, hx, hy⟩
    obtain ⟨h1, h2, h3⟩ := barycentric_affine_unique p a b c h _
      (barycentric_of_den_ne_zero p a b c h) α β γ hsum hx hy
    exact ⟨h1 ▸ le_of_lt hα, h2 ▸ le_of_lt hβ, h3 ▸ le_of_lt hγ⟩
  · intro hout
    by_contra hcon
    push_neg at hcon
    obtain ⟨h1, h2, h3⟩ := hcon
    obtain ⟨hsum, hx, hy⟩ := barycentric_affine_repr p a b c h _
      (barycentric_of_den_ne_zero p a b c h)
    exact hout ⟨_, _, _, h1, h2, h3, hsum, hx, hy⟩

/-- Witness for C5 at the concrete triangle `(0,0), (1,0), (0,1)` and point
`(0,0)`. -/
theorem barycentric_partition_witness :
    baryDen ⟨0, 0⟩ ⟨0, 0⟩ ⟨1, 0⟩ ⟨0, 1⟩ ≠ 0 ∧
      (∃ t : Vec3 ℚ, barycentric ⟨0, 0⟩ ⟨0, 0⟩ ⟨1, 0⟩ ⟨0, 1⟩ = some t ∧
        t.x + t.y + t.z = 1 ∧
        t.y = ((⟨0, 1⟩ - ⟨0, 0⟩ : Vec2 ℚ).dot (⟨0, 1⟩ - ⟨0, 0⟩) *
                (⟨0, 0⟩ - ⟨0, 0⟩ : Vec2 ℚ).dot (⟨1, 0⟩ - ⟨0, 0⟩) -
                (⟨1, 0⟩ - ⟨0, 0⟩ : Vec2 ℚ).dot (⟨0, 1⟩ - ⟨0, 0⟩) *
                (⟨0, 0⟩ - ⟨0, 0⟩ : Vec2 ℚ).dot (⟨0, 1⟩ - ⟨0, 0⟩)) /
              baryDen ⟨0, 0⟩ ⟨0, 0⟩ ⟨1, 0⟩ ⟨0, 1⟩ ∧
        t.z = ((⟨1, 0⟩ - ⟨0, 0⟩ : Vec2 ℚ).dot (⟨1, 0⟩ - ⟨0, 0⟩) *
                (⟨0, 0⟩ - ⟨0, 0⟩ : Vec2 ℚ).dot (⟨0, 1⟩ - ⟨0, 0⟩) -
                (⟨1, 0⟩ - ⟨0, 0⟩ : Vec2 ℚ).dot (⟨0, 1⟩ - ⟨0, 0⟩) *
                (⟨0, 0⟩ - ⟨0, 0⟩ : Vec2 ℚ).dot (⟨1, 0⟩ - ⟨0, 0⟩)) /
              baryDen ⟨0, 0⟩ ⟨0, 0⟩ ⟨1, 0⟩ ⟨0, 1⟩ ∧
        (strictInside ⟨0, 0⟩ ⟨0, 0⟩ ⟨1, 0⟩ ⟨0, 1⟩ → 0 ≤ t.x ∧ 0 ≤ t.y ∧ 0 ≤ t.z) ∧
        (strictOutside ⟨0, 0⟩ ⟨0, 0⟩ ⟨1, 0⟩ ⟨0, 1⟩ → t.x < 0 ∨ t.y < 0 ∨ t.z < 0)) :=
  ⟨by simp [baryDen, Vec2.dot], barycentric_partition ⟨0, 0⟩ ⟨0, 0⟩ ⟨1, 0⟩ ⟨0, 1⟩ (by simp [baryDen, Vec2.dot])⟩

/-- C8: for every degenerate triangle — three collinear vertices, including
repeated vertices — the denominator `d00*d11 - d01*d01` computed by
`barycentric` is exactly zero, and since the function divides by it without
any guard, the returned weight triple is non-finite (the `none` case of the
model) for every point `p`. -/
theorem degenerate_baryDen_zero (a b c : Vec2 ℚ)
    (hcol : Collinear ℚ {a.toPair, b.toPair, c.toPair}) (p : Vec2 ℚ) :
    baryDen p a b c = 0 ∧ barycentric p a b c = none := by
  have hc := (collinear_iff_cross2_eq_zero a b c).mp hcol
  have hden : baryDen p a b c = 0 := by rw [baryDen_eq_sq_cross, hc]; ring
  refine ⟨hden, ?_⟩
  rw [baryDen_def] at hden
  simp only [barycentric, if_pos hden]

/-- Witness for C8 at the concrete degenerate triangle `(0,0), (1,1), (2,2)`
and point `(5,7)`. -/
theorem degenerate_baryDen_zero_witness :
    Collinear ℚ {Vec2.toPair ⟨0, 0⟩, Vec2.toPair ⟨1, 1⟩, Vec2.toPair ⟨2, 2⟩} ∧
      (baryDen ⟨5, 7⟩ ⟨0, 0⟩ ⟨1, 1⟩ ⟨2, 2⟩ = 0 ∧
        barycentric ⟨5, 7⟩ ⟨0, 0⟩ ⟨1, 1⟩ ⟨2, 2⟩ = none) :=
  have hcol : Collinear ℚ {Vec2.toPair ⟨0, 0⟩, Vec2.toPair ⟨1, 1⟩, Vec2.toPair ⟨2, 2⟩} :=
    (collinear_iff_cross2_eq_zero ⟨0, 0⟩ ⟨1, 1⟩ ⟨2, 2⟩).mpr (by simp [cross2])
  ⟨hcol, degenerate_baryDen_zero ⟨0, 0⟩ ⟨1, 1⟩ ⟨2, 2⟩ hcol ⟨5, 7⟩⟩

/-!
## Triangle rasterizer — `framework/src/util/triangle.rs`

```rust
pub struct Triangle {
    cur: Vec2<i32>,
    pts: [Vec2<i32>; 3],
    min: Vec2<i32>,
    max: Vec2<i32>,
}

pub fn new_bounded(pts: [Vec2<i32>; 3], size: Extent2<i32>) -> ... {
    let size: Vec2<i32> = size.map(|n| n - 1).into();
    let mut min: Vec2<i32> = size.clone();
    let mut max: Vec2<i32> = Vec2::zero();
    for vert in &pts {
        min = min.map2(*vert, |m, v| m.min(v).max(0));
        max = max.map3(*vert, size, |m, v, b| m.max(v).min(b));
    }
    let cur = min.clone();
    Self { cur, pts, min, max }
}

fn next(&mut self) -> Option<Self::Item> {
    while self.cur.y <= self.max.y {
        let p = self.cur;
        let b: Vec3<f32> = p.into_barycentric(self.pts);
        self.cur.x += 1;
        if self.cur.x > self.max.x {
            self.cur.x = self.min.x;
            self.cur.y += 1;
        }
        if b.x >= 0.0 && b.y >= 0.0 && b.z >= 0.0 {
            return Some((p, b));
        }
    }
    None
}
```
-/

/-- `p.into_barycentric(pts)` for integer vectors.  Modelled from the spec:
the `Barycentric` trait implementation is not among the sources; per §4.3
it computes the "barycentric coordinates (computed via the standard
Cramer's-rule formula from the triangle edge vectors)", i.e. it evaluates
the generic `barycentric` on the float-converted points. -/
def into_barycentric (p : Vec2 ℤ) (pts : Vec2 ℤ × Vec2 ℤ × Vec2 ℤ) : Option (Vec3 ℚ) :=
  barycentric p.toQ pts.1.toQ pts.2.1.toQ pts.2.2.toQ

/-- Iterator state of `Triangle` (`triangle.rs`). -/
structure Triangle where
  cur : Vec2 ℤ
  pts : Vec2 ℤ × Vec2 ℤ × Vec2 ℤ
  min : Vec2 ℤ
  max : Vec2 ℤ
deriving DecidableEq, Repr

/-- `Triangle::new_bounded`.  The `for vert in &pts` fold over the three
vertices is unrolled. -/
def Triangle.new_bounded (pts : Vec2 ℤ × Vec2 ℤ × Vec2 ℤ) (size : Extent2 ℤ) : Triangle :=
  -- let size: Vec2<i32> = size.map(|n| n - 1).into();
  let s : Vec2 ℤ := ⟨size.w - 1, size.h - 1⟩
  -- min = min.map2(*vert, |m, v| m.min(v).max(0))
  let stepMin : Vec2 ℤ → Vec2 ℤ → Vec2 ℤ :=
    fun m v => ⟨Max.max (Min.min m.x v.x) 0, Max.max (Min.min m.y v.y) 0⟩
  -- max = max.map3(*vert, size, |m, v, b| m.max(v).min(b))
  let stepMax : Vec2 ℤ → Vec2 ℤ → Vec2 ℤ :=
    fun m v => ⟨Min.min (Max.max m.x v.x) s.x, Min.min (Max.max m.y v.y) s.y⟩
  let mn := stepMin (stepMin (stepMin s pts.1) pts.2.1) pts.2.2
  let mx := stepMax (stepMax (stepMax ⟨0, 0⟩ pts.1) pts.2.1) pts.2.2
  { cur := mn, pts := pts, min := mn, max := mx }

/-- One row of the `Triangle` iteration.  The Rust `next` tests the
candidate `cur`, then advances `cur.x`, resetting the cursor to
`(min.x, cur.y + 1)` once `cur.x` passes `max.x`; grouping the iterations
of that single `while` loop by rows gives this function: the fragments
produced on row `y` starting from column `x`.  Note that the candidate at
the entry column is tested before the advance, exactly as in the source —
so at least one candidate per row is tested even when `x > mxx`.  A `none`
barycentric triple (non-finite weights) fails the `b.x >= 0.0 && ...` test,
since every comparison with NaN is false. -/
def Triangle.rowRun (pts : Vec2 ℤ × Vec2 ℤ × Vec2 ℤ) (mxx y x : ℤ) :
    List (Vec2 ℤ × Vec3 ℚ) :=
  let p : Vec2 ℤ := ⟨x, y⟩
  let rest := if _h : x + 1 > mxx then [] else Triangle.rowRun pts mxx y (x + 1)
  match into_barycentric p pts with
  | some v => if 0 ≤ v.x ∧ 0 ≤ v.y ∧ 0 ≤ v.z then (p, v) :: rest else rest
  | none => rest
termination_by (mxx - x).toNat
decreasing_by omega

/-- The full fragment sequence produced by repeatedly calling
`Triangle::next` until exhaustion: the rows `cur.y ..= max.y`, the first
starting at column `cur.x`, the following ones at `min.x`. -/
def Triangle.run (t : Triangle) : List (Vec2 ℤ × Vec3 ℚ) :=
  if _h : t.cur.y ≤ t.max.y then
    Triangle.rowRun t.pts t.max.x t.cur.y t.cur.x ++
      Triangle.run { t with cur := ⟨t.min.x, t.cur.y + 1⟩ }
  else []
termination_by (t.max.y + 1 - t.cur.y).toNat
decreasing_by simp; omega

/-- The integer interval `[lo, hi]` as a list, in increasing order. -/
def intRange (lo hi : ℤ) : List ℤ :=
  (List.range (hi + 1 - lo).toNat).map (fun i : ℕ => lo + (i : ℤ))

theorem intRange_nil (lo hi : ℤ) (h : hi < lo) : intRange lo hi = [] := by
  simp [intRange, List.range_eq_nil, Int.toNat_eq_zero.mpr (by omega : hi + 1 - lo ≤ 0)]

theorem intRange_cons (lo hi : ℤ) (h : lo ≤ hi) :
    intRange lo hi = lo :: intRange (lo + 1) hi := by
  have hn : (hi + 1 - lo).toNat = (hi + 1 - (lo + 1)).toNat + 1 := by omega
  simp only [intRange, hn, List.range_succ_eq_map, List.map_cons, List.map_map]
  congr 1
  · simp
  · apply List.map_congr_left
    intro i _
    simp only [Function.comp_apply]
    push_cast
    ring

theorem mem_intRange {a lo hi : ℤ} : a ∈ intRange lo hi ↔ lo ≤ a ∧ a ≤ hi := by
  simp only [intRange, List.mem_map, List.mem_range]
  constructor
  · rintro ⟨i, hmem, rfl⟩
    omega
  · rintro ⟨h1, h2⟩
    refine ⟨(a - lo).toNat, ?_, ?_⟩ <;> omega

theorem intRange_length (lo hi : ℤ) : (intRange lo hi).length = (hi + 1 - lo).toNat := by
  rw [intRange, List.length_map, List.length_range]

/-- The per-candidate fragment test of `Triangle::next`: a candidate pixel
is emitted together with its barycentric triple when all three weights are
non-negative (a non-finite triple never passes). -/
def Triangle.frag (pts : Vec2 ℤ × Vec2 ℤ × Vec2 ℤ) (p : Vec2 ℤ) :
    Option (Vec2 ℤ × Vec3 ℚ) :=
  match into_barycentric p pts with
  | some v => if 0 ≤ v.x ∧ 0 ≤ v.y ∧ 0 ≤ v.z then some (p, v) else none
  | none => none

/-- The candidate columns of one row of the scan: the entry column, then
every further column up to `max.x` (at least one candidate per row). -/
def Triangle.rowCols (x mxx : ℤ) : List ℤ := x :: intRange (x + 1) mxx

set_option maxHeartbeats 1000000 in
theorem Triangle.rowRun_eq (pts : Vec2 ℤ × Vec2 ℤ × Vec2 ℤ) (mxx y : ℤ) :
    ∀ x : ℤ, Triangle.rowRun pts mxx y x =
      ((Triangle.rowCols x mxx).map fun xx => (⟨xx, y⟩ : Vec2 ℤ)).filterMap
        (Triangle.frag pts) := by
  suffices H : ∀ (n : ℕ) (x : ℤ), (mxx - x).toNat = n →
      Triangle.rowRun pts mxx y x =
        ((Triangle.rowCols x mxx).map fun xx => (⟨xx, y⟩ : Vec2 ℤ)).filterMap
          (Triangle.frag pts) by
    intro x
    exact H _ x rfl
  intro n
  induction n using Nat.strong_induction_on with
  | _ n IH =>
    intro x hx
    rw [Triangle.rowRun]
    simp only [Triangle.rowCols]
    by_cases hc : x + 1 > mxx
    · rw [dif_pos hc, intRange_nil (x + 1) mxx (by omega), List.map_cons, List.map_nil,
        List.filterMap_cons, List.filterMap_nil]
      rcases hb : into_barycentric ⟨x, y⟩ pts with _ | v
      · simp only [Triangle.frag, hb]
      · simp only [Triangle.frag, hb]
        split_ifs <;> rfl
    · rw [dif_neg hc, IH (mxx - (x + 1)).toNat (by omega) (x + 1) rfl]
      simp only [Triangle.rowCols]
      conv_rhs => rw [List.map_cons, List.filterMap_cons]
      rw [intRange_cons (x + 1) mxx (by omega)]
      rcases hb : into_barycentric ⟨x, y⟩ pts with _ | v
      · simp only [Triangle.frag, hb]
      · simp only [Triangle.frag, hb]
        split_ifs <;> rfl

/-- The full output of the `Triangle` iterator, for a state whose cursor
sits at the start of a row (as produced by `new_bounded`): the candidate
pixels of the clamped bounding box, scanned row-major, filtered by the
barycentric fragment test. -/
theorem Triangle.run_eq (t : Triangle) (hc : t.cur.x = t.min.x) :
    t.run = (intRange t.cur.y t.max.y).flatMap fun y =>
      ((Triangle.rowCols t.min.x t.max.x).map fun xx => (⟨xx, y⟩ : Vec2 ℤ)).filterMap
        (Triangle.frag t.pts) := by
  suffices H : ∀ (n : ℕ) (t : Triangle), t.cur.x = t.min.x →
      (t.max.y + 1 - t.cur.y).toNat = n →
      t.run = (intRange t.cur.y t.max.y).flatMap fun y =>
        ((Triangle.rowCols t.min.x t.max.x).map fun xx => (⟨xx, y⟩ : Vec2 ℤ)).filterMap
          (Triangle.frag t.pts) by
    exact H _ t hc rfl
  intro n
  induction n using Nat.strong_induction_on with
  | _ n IH =>
    intro t hc hn
    rw [Triangle.run]
    by_cases hy : t.cur.y ≤ t.max.y
    · rw [dif_pos hy]
      rw [IH (t.max.y + 1 - (t.cur.y + 1)).toNat (by omega) _ (by simp) (by simp)]
      simp only
      rw [intRange_cons _ _ hy, List.flatMap_cons, Triangle.rowRun_eq, hc]
    · rw [dif_neg hy]
      rw [intRange_nil _ _ (by omega), List.flatMap_nil]

/-! Closed forms for the clamped bounding box computed by `new_bounded`. -/

theorem Triangle.nb_pts (pts : Vec2 ℤ × Vec2 ℤ × Vec2 ℤ) (size : Extent2 ℤ) :
    (Triangle.new_bounded pts size).pts = pts := rfl

theorem Triangle.nb_cur (pts : Vec2 ℤ × Vec2 ℤ × Vec2 ℤ) (size : Extent2 ℤ) :
    (Triangle.new_bounded pts size).cur = (Triangle.new_bounded pts size).min := rfl

theorem Triangle.nb_min_x (pts : Vec2 ℤ × Vec2 ℤ × Vec2 ℤ) (size : Extent2 ℤ) :
    (Triangle.new_bounded pts size).min.x =
      Max.max 0 (Min.min (size.w - 1) (Min.min pts.1.x (Min.min pts.2.1.x pts.2.2.x))) := by
  simp only [Triangle.new_bounded]
  omega

theorem Triangle.nb_min_y (pts : Vec2 ℤ × Vec2 ℤ × Vec2 ℤ) (size : Extent2 ℤ) :
    (Triangle.new_bounded pts size).min.y =
      Max.max 0 (Min.min (size.h - 1) (Min.min pts.1.y (Min.min pts.2.1.y pts.2.2.y))) := by
  simp only [Triangle.new_bounded]
  omega

theorem Triangle.nb_max_x (pts : Vec2 ℤ × Vec2 ℤ × Vec2 ℤ) (size : Extent2 ℤ) :
    (Triangle.new_bounded pts size).max.x =
      Min.min (size.w - 1) (Max.max 0 (Max.max pts.1.x (Max.max pts.2.1.x pts.2.2.x))) := by
  simp only [Triangle.new_bounded]
  omega

theorem Triangle.nb_max_y (pts : Vec2 ℤ × Vec2 ℤ × Vec2 ℤ) (size : Extent2 ℤ) :
    (Triangle.new_bounded pts size).max.y =
      Min.min (size.h - 1) (Max.max 0 (Max.max pts.1.y (Max.max pts.2.1.y pts.2.2.y))) := by
  simp only [Triangle.new_bounded]
  omega

/-- Characterization of a successful fragment test. -/
theorem Triangle.frag_eq_some_iff (pts : Vec2 ℤ × Vec2 ℤ × Vec2 ℤ) (p : Vec2 ℤ)
    (pr : Vec2 ℤ × Vec3 ℚ) :
    Triangle.frag pts p = some pr ↔
      pr.1 = p ∧ into_barycentric p pts = some pr.2 ∧
        0 ≤ pr.2.x ∧ 0 ≤ pr.2.y ∧ 0 ≤ pr.2.z := by
  rcases hb : into_barycentric p pts with _ | v
  · simp only [Triangle.frag, hb]
    constructor
    · intro h
      exact Option.noConfusion h
    · rintro ⟨-, h, -⟩
      exact Option.noConfusion h
  · simp only [Triangle.frag, hb]
    split_ifs with hpos
    · constructor
      · rintro h
        obtain rfl : pr = (p, v) := (Option.some_injective _ h).symm
        exact ⟨rfl, rfl, hpos.1, hpos.2.1, hpos.2.2⟩
      · rintro ⟨h1, h2, -⟩
        obtain rfl : v = pr.2 := Option.some_injective _ h2
        subst h1
        rfl
    · constructor
      · intro h
        exact h.elim
      · rintro ⟨-, h2, hx, hy, hz⟩
        obtain rfl : v = pr.2 := Option.some_injective _ h2
        exact absurd ⟨hx, hy, hz⟩ hpos

/-- The pixels of the fragments produced from a candidate list form a
sublist of that candidate list. -/
theorem Triangle.map_fst_filterMap_frag (pts : Vec2 ℤ × Vec2 ℤ × Vec2 ℤ)
    (l : List (Vec2 ℤ)) :
    ((l.filterMap (Triangle.frag pts)).map Prod.fst).Sublist l := by
  induction l with
  | nil => simp
  | cons a l IH =>
    rcases hf : Triangle.frag pts a with _ | pr
    · rw [List.filterMap_cons_none hf]
      exact IH.cons a
    · rw [List.filterMap_cons_some hf, List.map_cons,
        ((Triangle.frag_eq_some_iff pts a pr).mp hf).1]
      exact IH.cons₂ a

/-- Strict row-major ordering on pixels: earlier rows first, `x` increasing
within a row. -/
def rowMajorLt (p q : Vec2 ℤ) : Prop := p.y < q.y ∨ (p.y = q.y ∧ p.x < q.x)

theorem intRange_pairwise (lo hi : ℤ) : (intRange lo hi).Pairwise (· < ·) := by
  refine List.Pairwise.map _ ?_ (List.pairwise_lt_range _)
  intro a b h
  omega

/-- The row-major candidate scan is strictly ordered. -/
theorem pairwise_rowMajor_flatMap (rows : List ℤ) (hrows : rows.Pairwise (· < ·))
    (mnx mxx : ℤ) :
    (rows.flatMap fun y => (intRange mnx mxx).map fun xx => (⟨xx, y⟩ : Vec2 ℤ)).Pairwise
      rowMajorLt := by
  induction rows with
  | nil => simp
  | cons y ys IH =>
    rw [List.flatMap_cons, List.pairwise_append]
    refine ⟨?_, IH (List.Pairwise.of_cons hrows), ?_⟩
    · refine List.Pairwise.map _ ?_ (intRange_pairwise mnx mxx)
      intro a b h
      exact Or.inr ⟨rfl, h⟩
    · rintro a ha b hb
      obtain ⟨xa, -, rfl⟩ := List.mem_map.mp ha
      obtain ⟨y', hy', hb'⟩ := List.mem_flatMap.mp hb
      obtain ⟨xb, -, rfl⟩ := List.mem_map.mp hb'
      exact Or.inl (List.rel_of_pairwise_cons hrows hy')

theorem flatMap_sublist {α β : Type} (l : List α) (f g : α → List β)
    (h : ∀ a, (f a).Sublist (g a)) : (l.flatMap f).Sublist (l.flatMap g) := by
  induction l with
  | nil => simp
  | cons a l IH => exact List.Sublist.append (h a) IH

/-- The fragments produced by scanning the box `[mnx, mxx] × [mny, mxy]`
row-major and applying the fragment test. -/
def boxScan (pts : Vec2 ℤ × Vec2 ℤ × Vec2 ℤ) (mnx mxx mny mxy : ℤ) :
    List (Vec2 ℤ × Vec3 ℚ) :=
  (intRange mny mxy).flatMap fun y =>
    ((intRange mnx mxx).map fun xx => (⟨xx, y⟩ : Vec2 ℤ)).filterMap (Triangle.frag pts)

/-- `Triangle::new_bounded` followed by iterator exhaustion: the candidate
pixels of the clamped bounding box in row-major order, filtered by the
fragment test (for a positive width the box is well-formed, so the entry
column of each row is just the first column of the box). -/
theorem Triangle.new_bounded_run_eq (pts : Vec2 ℤ × Vec2 ℤ × Vec2 ℤ) (size : Extent2 ℤ)
    (hw : 1 ≤ size.w) :
    (Triangle.new_bounded pts size).run =
      boxScan pts (Triangle.new_bounded pts size).min.x (Triangle.new_bounded pts size).max.x
        (Triangle.new_bounded pts size).min.y (Triangle.new_bounded pts size).max.y := by
  have hxm : (Triangle.new_bounded pts size).min.x ≤ (Triangle.new_bounded pts size).max.x := by
    rw [Triangle.nb_min_x, Triangle.nb_max_x]
    omega
  have hcols : Triangle.rowCols (Triangle.new_bounded pts size).min.x
      (Triangle.new_bounded pts size).max.x =
      intRange (Triangle.new_bounded pts size).min.x (Triangle.new_bounded pts size).max.x := by
    rw [Triangle.rowCols, ← intRange_cons _ _ hxm]
  have h1 := Triangle.run_eq (Triangle.new_bounded pts size) rfl
  rw [h1, hcols, Triangle.nb_pts, Triangle.nb_cur, boxScan]

theorem boxScan_map_fst_pairwise (pts : Vec2 ℤ × Vec2 ℤ × Vec2 ℤ) (mnx mxx mny mxy : ℤ) :
    ((boxScan pts mnx mxx mny mxy).map Prod.fst).Pairwise rowMajorLt := by
  rw [boxScan, List.map_flatMap]
  exact List.Pairwise.sublist
    (flatMap_sublist _ _ _ fun y => Triangle.map_fst_filterMap_frag pts _)
    (pairwise_rowMajor_flatMap _ (intRange_pairwise _ _) _ _)

theorem boxScan_nodup (pts : Vec2 ℤ × Vec2 ℤ × Vec2 ℤ) (mnx mxx mny mxy : ℤ) :
    (boxScan pts mnx mxx mny mxy).Nodup := by
  refine List.Nodup.of_map Prod.fst ?_
  refine List.Pairwise.imp ?_ (boxScan_map_fst_pairwise pts mnx mxx mny mxy)
  intro a b hab heq
  subst heq
  rcases hab with h | ⟨-, h⟩ <;> exact absurd h (lt_irrefl _)

/-- Membership in a box scan, characterized. -/
theorem boxScan_mem_iff (pts : Vec2 ℤ × Vec2 ℤ × Vec2 ℤ) (mnx mxx mny mxy : ℤ)
    (pr : Vec2 ℤ × Vec3 ℚ) :
    pr ∈ boxScan pts mnx mxx mny mxy ↔
      mnx ≤ pr.1.x ∧ pr.1.x ≤ mxx ∧ mny ≤ pr.1.y ∧ pr.1.y ≤ mxy ∧
        into_barycentric pr.1 pts = some pr.2 ∧
        0 ≤ pr.2.x ∧ 0 ≤ pr.2.y ∧ 0 ≤ pr.2.z := by
  rw [boxScan]
  constructor
  · intro hpr
    obtain ⟨y, hy, hpr⟩ := List.mem_flatMap.mp hpr
    obtain ⟨pp, hpp, hf⟩ := List.mem_filterMap.mp hpr
    obtain ⟨xx, hxx, rfl⟩ := List.mem_map.mp hpp
    obtain ⟨h0, hbar, h1, h2, h3⟩ := (Triangle.frag_eq_some_iff pts _ pr).mp hf
    have hx0 : pr.1.x = xx := by rw [h0]
    have hy0 : pr.1.y = y := by rw [h0]
    rw [mem_intRange] at hxx hy
    rw [hx0, hy0]
    exact ⟨hxx.1, hxx.2, hy.1, hy.2, by rw [h0]; exact hbar, h1, h2, h3⟩
  · rintro ⟨h1, h2, h3, h4, hbar, hvx, hvy, hvz⟩
    refine List.mem_flatMap.mpr ⟨pr.1.y, mem_intRange.mpr ⟨h3, h4⟩, ?_⟩
    refine List.mem_filterMap.mpr ⟨pr.1, ?_, ?_⟩
    · exact List.mem_map.mpr ⟨pr.1.x, mem_intRange.mpr ⟨h1, h2⟩, rfl⟩
    · exact (Triangle.frag_eq_some_iff pts pr.1 pr).mpr ⟨rfl, hbar, hvx, hvy, hvz⟩

/-- Introduction form of `boxScan_mem_iff` with the pixel and weight triple
given separately. -/
theorem boxScan_mem_intro (pts : Vec2 ℤ × Vec2 ℤ × Vec2 ℤ) (mnx mxx mny mxy : ℤ)
    (p : Vec2 ℤ) (v : Vec3 ℚ)
    (h1 : mnx ≤ p.x) (h2 : p.x ≤ mxx) (h3 : mny ≤ p.y) (h4 : p.y ≤ mxy)
    (hbar : into_barycentric p pts = some v)
    (hvx : 0 ≤ v.x) (hvy : 0 ≤ v.y) (hvz : 0 ≤ v.z) :
    (p, v) ∈ boxScan pts mnx mxx mny mxy :=
  (boxScan_mem_iff pts mnx mxx mny mxy (p, v)).mpr ⟨h1, h2, h3, h4, hbar, hvx, hvy, hvz⟩

set_option maxHeartbeats 800000 in
/-- C4, amended with positive extents: for every vertex triple `pts` and
every extent `size` with `size.w ≥ 1` and `size.h ≥ 1`, every pair `(p, b)`
yielded by `Triangle::new_bounded(pts, size)` satisfies
`0 ≤ p.x < size.w`, `0 ≤ p.y < size.h`, `b` is the barycentric triple of
`p` w.r.t. `pts`, and `b.x, b.y, b.z ≥ 0`; moreover every pixel of the
bounding box of the vertices clipped to `[0, size)` whose barycentric
coordinates are all non-negative is yielded exactly once, and the yielded
pixels are in strict row-major order. -/
theorem new_bounded_run_spec (pts : Vec2 ℤ × Vec2 ℤ × Vec2 ℤ) (size : Extent2 ℤ)
    (hw : 1 ≤ size.w) (hh : 1 ≤ size.h) :
    (∀ pr ∈ (Triangle.new_bounded pts size).run,
        (0 ≤ pr.1.x ∧ pr.1.x < size.w ∧ 0 ≤ pr.1.y ∧ pr.1.y < size.h) ∧
        into_barycentric pr.1 pts = some pr.2 ∧
        0 ≤ pr.2.x ∧ 0 ≤ pr.2.y ∧ 0 ≤ pr.2.z) ∧
    (∀ (p : Vec2 ℤ) (v : Vec3 ℚ),
        Max.max 0 (Min.min pts.1.x (Min.min pts.2.1.x pts.2.2.x)) ≤ p.x →
        p.x ≤ Min.min (size.w - 1) (Max.max pts.1.x (Max.max pts.2.1.x pts.2.2.x)) →
        Max.max 0 (Min.min pts.1.y (Min.min pts.2.1.y pts.2.2.y)) ≤ p.y →
        p.y ≤ Min.min (size.h - 1) (Max.max pts.1.y (Max.max pts.2.1.y pts.2.2.y)) →
        into_barycentric p pts = some v → 0 ≤ v.x → 0 ≤ v.y → 0 ≤ v.z →
        (Triangle.new_bounded pts size).run.countP (fun pr => decide (pr = (p, v))) = 1) ∧
    ((Triangle.new_bounded pts size).run.map Prod.fst).Pairwise rowMajorLt := by
  have hrun : (Triangle.new_bounded pts size).run =
      boxScan pts
        (Max.max 0 (Min.min (size.w - 1) (Min.min pts.1.x (Min.min pts.2.1.x pts.2.2.x))))
        (Min.min (size.w - 1) (Max.max 0 (Max.max pts.1.x (Max.max pts.2.1.x pts.2.2.x))))
        (Max.max 0 (Min.min (size.h - 1) (Min.min pts.1.y (Min.min pts.2.1.y pts.2.2.y))))
        (Min.min (size.h - 1) (Max.max 0 (Max.max pts.1.y (Max.max pts.2.1.y pts.2.2.y)))) := by
    rw [Triangle.new_bounded_run_eq pts size hw, Triangle.nb_min_x, Triangle.nb_max_x,
      Triangle.nb_min_y, Triangle.nb_max_y]
  rw [hrun]
  refine ⟨?_, ?_, boxScan_map_fst_pairwise _ _ _ _ _⟩
  · intro pr hpr
    obtain ⟨h1, h2, h3, h4, hbar, hvx, hvy, hvz⟩ := (boxScan_mem_iff _ _ _ _ _ _).mp hpr
    exact ⟨⟨by omega, by omega, by omega, by omega⟩, hbar, hvx, hvy, hvz⟩
  · intro p v hx1 hx2 hy1 hy2 hbar hvx hvy hvz
    refine List.count_eq_one_of_mem (boxScan_nodup _ _ _ _ _) ?_
    exact boxScan_mem_intro _ _ _ _ _ p v (by omega) (by omega) (by omega) (by omega)
      hbar hvx hvy hvz

/-- C4 counterexample: with the zero-width extent `(0, 1)` the clamp
`min = size - 1 = -1` still produces a scannable box, and the iterator
yields the pixel `(0, 0)` with barycentric triple `(1, 0, 0)` for the
triangle `(0,0), (1,0), (0,1)` — violating the claimed bound
`p.x < size.w = 0`. -/
theorem new_bounded_unbounded_pixel :
    (⟨⟨0, 0⟩, ⟨1, 0, 0⟩⟩ : Vec2 ℤ × Vec3 ℚ) ∈
        (Triangle.new_bounded (⟨0, 0⟩, ⟨1, 0⟩, ⟨0, 1⟩) ⟨0, 1⟩).run ∧
      ¬ ((⟨⟨0, 0⟩, ⟨1, 0, 0⟩⟩ : Vec2 ℤ × Vec3 ℚ).1.x < (⟨0, 1⟩ : Extent2 ℤ).w) := by
  have hnb : Triangle.new_bounded (⟨0, 0⟩, ⟨1, 0⟩, ⟨0, 1⟩) ⟨0, 1⟩ =
      { cur := ⟨0, 0⟩, pts := (⟨0, 0⟩, ⟨1, 0⟩, ⟨0, 1⟩), min := ⟨0, 0⟩, max := ⟨-1, 0⟩ } := by
    decide
  have hbar : into_barycentric ⟨0, 0⟩ (⟨0, 0⟩, ⟨1, 0⟩, ⟨0, 1⟩) = some ⟨1, 0, 0⟩ := by
    rw [into_barycentric, barycentric]
    norm_num [Vec2.toQ, Vec2.dot]
  constructor
  · rw [hnb, Triangle.run]
    rw [dif_pos (by norm_num)]
    rw [Triangle.rowRun]
    rw [dif_pos (by norm_num)]
    simp only [hbar]
    rw [if_pos (by norm_num)]
    exact List.mem_cons_self _ _
  · norm_num

/-- Witness instantiating the amended `new_bounded` specification at the
unit triangle on a `4x4` frame. -/
theorem new_bounded_run_spec_witness :
    ((Triangle.new_bounded (⟨0, 0⟩, ⟨1, 0⟩, ⟨0, 1⟩) (⟨4, 4⟩ : Extent2 ℤ)).run.map
      Prod.fst).Pairwise rowMajorLt :=
  (new_bounded_run_spec (⟨0, 0⟩, ⟨1, 0⟩, ⟨0, 1⟩) ⟨4, 4⟩ (by norm_num) (by norm_num)).2.2

/-!
## Depth-buffered triangle draw — `src/draw.rs`

```rust
pub fn triangle(frame: &mut Frame, depth: &mut [f32], tex: &Image, tri: [Vertex; 3], col: Rgba<u8>) {
    let max = frame.size().as_();
    let pts = [tri[0].pos.xy().as_(), tri[1].pos.xy().as_(), tri[2].pos.xy().as_()];
    for (pt, br) in Triangle::new_bounded(pts, max) {
        // triangle point depth
        let pt_z = tri[0].pos.z * br.x + tri[1].pos.z * br.y + tri[2].pos.z * br.z;
        // depth buffer z
        let bf_z = &mut depth[pt.y as usize * frame.width() + pt.x as usize];
        if *bf_z < pt_z {
            *bf_z = pt_z;
            let u = ...; let v = ...;   // unused locals (dead code), not modelled
            frame.set(pt, col);
        }
    }
}
```

The unused texture argument and the two dead `u`/`v` locals have no effect
on the state and are not modelled.  The `as usize` casts are modelled with
`Int.toNat`; for the positive frame sizes of the claims every rasterized
point is in bounds, so no wrap-around occurs.
-/

/-- A vertex as loaded from a mesh (`src/obj.rs`). -/
structure Vertex where
  pos : Vec3 ℚ
  nor : Vec3 ℚ
  tex : Vec2 ℚ

/-- The `f32 as i32` cast: truncation toward zero. -/
def truncQ (q : ℚ) : ℤ := q.num.tdiv q.den

/-- Componentwise `f32 as i32` cast of a 2-vector. -/
def truncVec (v : Vec2 ℚ) : Vec2 ℤ := ⟨truncQ v.x, truncQ v.y⟩

/-- The integer screen positions of a vertex triple:
`[tri[0].pos.xy().as_(), tri[1].pos.xy().as_(), tri[2].pos.xy().as_()]`. -/
def ptsOf (tri : Vertex × Vertex × Vertex) : Vec2 ℤ × Vec2 ℤ × Vec2 ℤ :=
  (truncVec tri.1.pos.xy, truncVec tri.2.1.pos.xy, truncVec tri.2.2.pos.xy)

/-- The interpolated fragment depth
`pt_z = tri[0].pos.z * br.x + tri[1].pos.z * br.y + tri[2].pos.z * br.z`. -/
def zOf (tri : Vertex × Vertex × Vertex) (br : Vec3 ℚ) : ℚ :=
  tri.1.pos.z * br.x + tri.2.1.pos.z * br.y + tri.2.2.pos.z * br.z

/-- The flat depth-buffer index `pt.y as usize * frame.width() + pt.x`. -/
def idx (w : ℕ) (pt : Vec2 ℤ) : ℕ := pt.y.toNat * w + pt.x.toNat

/-- The mutable render target of `draw::triangle`: the pixel buffer (as a
map from positions to colors) and the depth buffer (a flat float array). -/
structure RenderState (Col : Type) where
  frame : Vec2 ℤ → Col
  depth : ℕ → ℚ

/-- Modelled from the spec: `Frame::set` is not among the sources; per §4.1
(`set_pixel(x, y, color)`: "writes 4 bytes") it stores the given color at
the given pixel position. -/
def Frame.set {Col : Type} (f : Vec2 ℤ → Col) (pt : Vec2 ℤ) (col : Col) : Vec2 ℤ → Col :=
  fun q => if q = pt then col else f q

/-- The body of the `for (pt, br)` loop of `draw::triangle`. -/
def drawStep {Col : Type} (w : ℕ) (tri : Vertex × Vertex × Vertex) (col : Col)
    (s : RenderState Col) (pb : Vec2 ℤ × Vec3 ℚ) : RenderState Col :=
  let pt := pb.1
  let br := pb.2
  let ptZ := zOf tri br
  let i := idx w pt
  if s.depth i < ptZ then
    { frame := Frame.set s.frame pt col,
      depth := fun j => if j = i then ptZ else s.depth j }
  else
    s

/-- `draw::triangle`: rasterize the triangle bounded to the frame and run
the depth-tested write for every produced fragment. -/
def triangle {Col : Type} (w h : ℕ) (tri : Vertex × Vertex × Vertex) (col : Col)
    (st : RenderState Col) : RenderState Col :=
  ((Triangle.new_bounded (ptsOf tri) ⟨(w : ℤ), (h : ℤ)⟩).run).foldl (drawStep w tri col) st

/-- `f32::MIN`, the most-negative finite `f32`, as an exact rational:
`-(2 - 2^-23) * 2^127`. -/
def f32min : ℚ := -(2 ^ 128 - 2 ^ 104)

/-!
## Bresenham line tracer — `framework/src/util/bresenham.rs`

```rust
pub struct Bresenham {
    cur: Vec2<isize>,  // (current x, current y)
    dx: isize,         // delta.x
    dy: isize,         // delta.y.signum()
    e: isize,          // error
    de: isize,         // delta error
    steep: bool,       // whether to flip (x,y) to (y, x)
    end: isize,        // last x position, inclusive
}

pub fn new(a, b) -> Self {
    let steep = if (a.x - b.x).abs() < (a.y - b.y).abs() {
        std::mem::swap(&mut a.x, &mut a.y);
        std::mem::swap(&mut b.x, &mut b.y);
        true
    } else { false };
    if a.x > b.x {
        std::mem::swap(&mut a.x, &mut b.x);
        std::mem::swap(&mut a.y, &mut b.y);
    }
    let d = b - a;
    Self { cur: a, dx: d.x, dy: d.y.signum(), e: 0, de: d.y.abs() * 2,
           steep, end: b.x }
}

fn next(&mut self) -> Option<Self::Item> {
    let out;
    if self.cur.x > self.end { out = None; }
    else {
        out = Some(if self.steep { self.cur.yx() } else { self.cur });
        self.e += self.de;
        if self.e > self.dx { self.cur.y += self.dy; self.e -= self.dx * 2; }
        self.cur.x += 1;
    }
    out
}
```

The `end` field is a Lean keyword and is called `stop` here.
-/

/-- Iterator state of `Bresenham`. -/
structure Bresenham where
  cur : Vec2 ℤ
  dx : ℤ
  dy : ℤ
  e : ℤ
  de : ℤ
  steep : Bool
  stop : ℤ
deriving DecidableEq, Repr

/-- `Bresenham::new`.  The two `mem::swap`s on the components of `a` and
`b` amount to replacing both points by their `yx` swaps; the second pair of
swaps exchanges `a` and `b` wholesale. -/
def Bresenham.new (a0 b0 : Vec2 ℤ) : Bresenham :=
  -- adjust slope
  let steep := |a0.x - b0.x| < |a0.y - b0.y|
  let a1 := if steep then a0.yx else a0
  let b1 := if steep then b0.yx else b0
  -- flip the x so that we always start with the lowest x
  let a := if a1.x > b1.x then b1 else a1
  let b := if a1.x > b1.x then a1 else b1
  -- delta
  let d := b - a
  { cur := a, dx := d.x, dy := d.y.sign, e := 0, de := |d.y| * 2,
    steep := steep, stop := b.x }

/-- The state advance performed by one successful `Bresenham::next` call
(after yielding): increment the slope error, possibly step `y`, advance
`x`. -/
def Bresenham.step (s : Bresenham) : Bresenham :=
  let e1 := s.e + s.de
  if e1 > s.dx then
    { s with cur := ⟨s.cur.x + 1, s.cur.y + s.dy⟩, e := e1 - s.dx * 2 }
  else
    { s with cur := ⟨s.cur.x + 1, s.cur.y⟩, e := e1 }

/-- The full point sequence produced by repeatedly calling
`Bresenham::next` until exhaustion. -/
def Bresenham.run (s : Bresenham) : List (Vec2 ℤ) :=
  if _h : s.cur.x > s.stop then []
  else (if s.steep then s.cur.yx else s.cur) :: Bresenham.run s.step
termination_by (s.stop + 1 - s.cur.x).toNat
decreasing_by
  simp only [Bresenham.step]
  split <;> simp <;> omega

theorem Bresenham.step_stop (s : Bresenham) : s.step.stop = s.stop := by
  rw [Bresenham.step]; split <;> rfl

theorem Bresenham.step_steep (s : Bresenham) : s.step.steep = s.steep := by
  rw [Bresenham.step]; split <;> rfl

theorem Bresenham.step_dx (s : Bresenham) : s.step.dx = s.dx := by
  rw [Bresenham.step]; split <;> rfl

theorem Bresenham.step_dy (s : Bresenham) : s.step.dy = s.dy := by
  rw [Bresenham.step]; split <;> rfl

theorem Bresenham.step_de (s : Bresenham) : s.step.de = s.de := by
  rw [Bresenham.step]; split <;> rfl

theorem Bresenham.step_cur_x (s : Bresenham) : s.step.cur.x = s.cur.x + 1 := by
  rw [Bresenham.step]; split <;> rfl

/-- Length of the traced sequence: one point per `x` from `cur.x` to
`stop`, inclusive. -/
theorem Bresenham.run_length (s : Bresenham) :
    (Bresenham.run s).length = (s.stop + 1 - s.cur.x).toNat := by
  suffices H : ∀ (n : ℕ) (s : Bresenham), (s.stop + 1 - s.cur.x).toNat = n →
      (Bresenham.run s).length = (s.stop + 1 - s.cur.x).toNat by
    exact H _ s rfl
  intro n
  induction n using Nat.strong_induction_on with
  | _ n IH =>
    intro s hn
    rw [Bresenham.run]
    by_cases hc : s.cur.x > s.stop
    · rw [dif_pos hc]
      simp
      omega
    · rw [dif_neg hc]
      have hx := Bresenham.step_cur_x s
      have hs := Bresenham.step_stop s
      rw [List.length_cons, IH (s.step.stop + 1 - s.step.cur.x).toNat (by omega) s.step rfl]
      omega

theorem Bresenham.run_head (s : Bresenham) (h : s.cur.x ≤ s.stop) :
    (Bresenham.run s).head? = some (if s.steep then s.cur.yx else s.cur) := by
  rw [Bresenham.run, dif_neg (by omega)]
  rfl

/-- The major coordinate (x, or y when `steep`) of the traced points is
exactly the integer interval `[cur.x, stop]` in order. -/
theorem Bresenham.run_map_major (s : Bresenham) :
    (Bresenham.run s).map (fun p => if s.steep then p.y else p.x) =
      intRange s.cur.x s.stop := by
  suffices H : ∀ (n : ℕ) (s : Bresenham), (s.stop + 1 - s.cur.x).toNat = n →
      (Bresenham.run s).map (fun p => if s.steep then p.y else p.x) =
        intRange s.cur.x s.stop by
    exact H _ s rfl
  intro n
  induction n using Nat.strong_induction_on with
  | _ n IH =>
    intro s hn
    rw [Bresenham.run]
    by_cases hc : s.cur.x > s.stop
    · rw [dif_pos hc, List.map_nil, intRange_nil _ _ (by omega)]
    · have IH2 := IH (s.step.stop + 1 - s.step.cur.x).toNat
        (by rw [Bresenham.step_cur_x, Bresenham.step_stop]; omega) s.step rfl
      rw [Bresenham.step_steep, Bresenham.step_cur_x, Bresenham.step_stop] at IH2
      rw [dif_neg hc, List.map_cons, IH2]
      conv_rhs => rw [intRange_cons s.cur.x s.stop (by omega)]
      rcases hst : s.steep with - | -
      · simp [hst]
      · simp [hst, Vec2.yx]

theorem Bresenham.run_nodup (s : Bresenham) : (Bresenham.run s).Nodup := by
  refine List.Nodup.of_map (fun p => if s.steep then p.y else p.x) ?_
  rw [Bresenham.run_map_major]
  exact List.Pairwise.imp (fun h => ne_of_lt h) (intRange_pairwise _ _)

/-- 8-connectivity: consecutive traced points differ by at most one in
each coordinate. -/
theorem Bresenham.run_chain (s : Bresenham) (hdy : s.dy.natAbs ≤ 1) :
    (Bresenham.run s).Chain' (fun p q => (q.x - p.x).natAbs ≤ 1 ∧ (q.y - p.y).natAbs ≤ 1) := by
  suffices H : ∀ (n : ℕ) (s : Bresenham), (s.stop + 1 - s.cur.x).toNat = n →
      s.dy.natAbs ≤ 1 →
      (Bresenham.run s).Chain' (fun p q => (q.x - p.x).natAbs ≤ 1 ∧ (q.y - p.y).natAbs ≤ 1) by
    exact H _ s rfl hdy
  intro n
  induction n using Nat.strong_induction_on with
  | _ n IH =>
    intro s hn hdy
    rw [Bresenham.run]
    by_cases hc : s.cur.x > s.stop
    · rw [dif_pos hc]
      exact List.chain'_nil
    · rw [dif_neg hc]
      rw [List.chain'_cons']
      constructor
      · intro q hq
        by_cases hc2 : s.step.cur.x > s.step.stop
        · rw [Bresenham.run, dif_pos hc2] at hq
          simp at hq
        · rw [Bresenham.run_head s.step (by omega)] at hq
          obtain rfl : (if s.step.steep = true then s.step.cur.yx else s.step.cur) = q := by
            simpa using hq
          rw [Bresenham.step_steep]
          rw [Bresenham.step] at *
          by_cases he : s.e + s.de > s.dx <;>
            simp only [if_pos, if_neg, he] at * <;>
            rcases hst : s.steep with - | - <;>
            simp [hst, Vec2.yx] <;> omega
      · exact IH (s.step.stop + 1 - s.step.cur.x).toNat
          (by rw [Bresenham.step_cur_x, Bresenham.step_stop]; omega) s.step rfl
          (by rw [Bresenham.step_dy]; exact hdy)

theorem getLast_cons_ne {α : Type} (a : α) (l : List α) (h : l ≠ []) :
    (a :: l).getLast? = l.getLast? := by
  cases l with
  | nil => exact absurd rfl h
  | cons b t => exact List.getLast?_cons_cons

theorem mem_of_head_eq {α : Type} {l : List α} {a : α} (h : l.head? = some a) : a ∈ l := by
  cases l with
  | nil => exact absurd h (by simp)
  | cons b t =>
    obtain rfl : b = a := by simpa using h
    exact List.mem_cons_self b t

theorem mem_of_getLast_eq {α : Type} {l : List α} {a : α} (h : l.getLast? = some a) : a ∈ l := by
  induction l with
  | nil => exact absurd h (by simp)
  | cons b t IH =>
    cases t with
    | nil =>
      obtain rfl : b = a := by simpa using h
      exact List.mem_cons_self b []
    | cons c u =>
      rw [List.getLast?_cons_cons] at h
      exact List.mem_cons_of_mem b (IH h)

/-- The last traced point: the error-accumulation invariant
`-dx < e ≤ dx` propagates along the loop, so the total number `m` of minor
steps taken on the way to `stop` satisfies the stated window. -/
theorem Bresenham.run_getLast (s : Bresenham) (hcx : s.cur.x ≤ s.stop) (hdx : 0 < s.dx)
    (hde0 : 0 ≤ s.de) (hde2 : s.de ≤ 2 * s.dx) (he1 : -s.dx < s.e) (he2 : s.e ≤ s.dx) :
    ∃ m : ℤ, (Bresenham.run s).getLast? =
        some (if s.steep then (⟨s.stop, s.cur.y + s.dy * m⟩ : Vec2 ℤ).yx
              else ⟨s.stop, s.cur.y + s.dy * m⟩) ∧
      -s.dx < s.e + (s.stop - s.cur.x) * s.de - 2 * s.dx * m ∧
      s.e + (s.stop - s.cur.x) * s.de - 2 * s.dx * m ≤ s.dx := by
  suffices H : ∀ (n : ℕ) (s : Bresenham), (s.stop - s.cur.x).toNat = n →
      s.cur.x ≤ s.stop → 0 < s.dx → 0 ≤ s.de → s.de ≤ 2 * s.dx →
      -s.dx < s.e → s.e ≤ s.dx →
      ∃ m : ℤ, (Bresenham.run s).getLast? =
          some (if s.steep then (⟨s.stop, s.cur.y + s.dy * m⟩ : Vec2 ℤ).yx
                else ⟨s.stop, s.cur.y + s.dy * m⟩) ∧
        -s.dx < s.e + (s.stop - s.cur.x) * s.de - 2 * s.dx * m ∧
        s.e + (s.stop - s.cur.x) * s.de - 2 * s.dx * m ≤ s.dx by
    exact H _ s rfl hcx hdx hde0 hde2 he1 he2
  intro n
  induction n using Nat.strong_induction_on with
  | _ n IH =>
    intro s hn hcx hdx hde0 hde2 he1 he2
    by_cases hbase : s.cur.x = s.stop
    · refine ⟨0, ?_, ?_, ?_⟩
      · rw [Bresenham.run, dif_neg (by omega)]
        have hstep : s.step.run = [] := by
          rw [Bresenham.run, dif_pos (by rw [Bresenham.step_cur_x, Bresenham.step_stop]; omega)]
        rw [hstep]
        have hcur : s.cur = ⟨s.stop, s.cur.y + s.dy * 0⟩ :=
          Vec2.eq_of_xy (by omega) (by ring)
        rw [← hcur]
        rfl
      · rw [hbase]
        rw [sub_self, zero_mul, mul_zero]
        omega
      · rw [hbase]
        rw [sub_self, zero_mul, mul_zero]
        omega
    · -- s.cur.x < s.stop
      have hlt : s.cur.x < s.stop := by omega
      rw [Bresenham.run, dif_neg (by omega)]
      have hlen := Bresenham.run_length s.step
      rw [Bresenham.step_cur_x, Bresenham.step_stop] at hlen
      have hne : s.step.run ≠ [] := by
        intro hnil
        rw [hnil] at hlen
        simp at hlen
        omega
      rw [getLast_cons_ne _ _ hne]
      by_cases he : s.e + s.de > s.dx
      · have hstep : s.step =
            { s with cur := ⟨s.cur.x + 1, s.cur.y + s.dy⟩, e := s.e + s.de - s.dx * 2 } := by
          rw [Bresenham.step, if_pos he]
        have hSe : s.step.e = s.e + s.de - s.dx * 2 := by rw [hstep]
        have hScy : s.step.cur.y = s.cur.y + s.dy := by rw [hstep]
        obtain ⟨m, hlast, hb1, hb2⟩ := IH (s.step.stop - s.step.cur.x).toNat
          (by rw [Bresenham.step_cur_x, Bresenham.step_stop]; omega) s.step rfl
          (by rw [Bresenham.step_cur_x, Bresenham.step_stop]; omega)
          (by rw [Bresenham.step_dx]; omega)
          (by rw [Bresenham.step_de]; omega)
          (by rw [Bresenham.step_de, Bresenham.step_dx]; omega)
          (by rw [Bresenham.step_dx, hSe]; omega)
          (by rw [Bresenham.step_dx, hSe]; omega)
        rw [Bresenham.step_steep, Bresenham.step_stop, Bresenham.step_dy, hScy] at hlast
        rw [Bresenham.step_dx, Bresenham.step_de, Bresenham.step_stop, Bresenham.step_cur_x,
          hSe] at hb1 hb2
        refine ⟨m + 1, ?_, ?_, ?_⟩
        · rw [hlast]
          have hy : s.cur.y + s.dy + s.dy * m = s.cur.y + s.dy * (m + 1) := by ring
          rw [hy]
        · have heq : s.e + (s.stop - s.cur.x) * s.de - 2 * s.dx * (m + 1) =
              s.e + s.de - s.dx * 2 + (s.stop - (s.cur.x + 1)) * s.de - 2 * s.dx * m := by
            ring
          rw [heq]
          exact hb1
        · have heq : s.e + (s.stop - s.cur.x) * s.de - 2 * s.dx * (m + 1) =
              s.e + s.de - s.dx * 2 + (s.stop - (s.cur.x + 1)) * s.de - 2 * s.dx * m := by
            ring
          rw [heq]
          exact hb2
      · have hstep : s.step =
            { s with cur := ⟨s.cur.x + 1, s.cur.y⟩, e := s.e + s.de } := by
          rw [Bresenham.step, if_neg he]
        have hSe : s.step.e = s.e + s.de := by rw [hstep]
        have hScy : s.step.cur.y = s.cur.y := by rw [hstep]
        obtain ⟨m, hlast, hb1, hb2⟩ := IH (s.step.stop - s.step.cur.x).toNat
          (by rw [Bresenham.step_cur_x, Bresenham.step_stop]; omega) s.step rfl
          (by rw [Bresenham.step_cur_x, Bresenham.step_stop]; omega)
          (by rw [Bresenham.step_dx]; omega)
          (by rw [Bresenham.step_de]; omega)
          (by rw [Bresenham.step_de, Bresenham.step_dx]; omega)
          (by rw [Bresenham.step_dx, hSe]; omega)
          (by rw [Bresenham.step_dx, hSe]; omega)
        rw [Bresenham.step_steep, Bresenham.step_stop, Bresenham.step_dy, hScy] at hlast
        rw [Bresenham.step_dx, Bresenham.step_de, Bresenham.step_stop, Bresenham.step_cur_x,
          hSe] at hb1 hb2
        refine ⟨m, ?_, ?_, ?_⟩
        · rw [hlast]
        · have heq : s.e + (s.stop - s.cur.x) * s.de - 2 * s.dx * m =
              s.e + s.de + (s.stop - (s.cur.x + 1)) * s.de - 2 * s.dx * m := by
            ring
          rw [heq]
          exact hb1
        · have heq : s.e + (s.stop - s.cur.x) * s.de - 2 * s.dx * m =
              s.e + s.de + (s.stop - (s.cur.x + 1)) * s.de - 2 * s.dx * m := by
            ring
          rw [heq]
          exact hb2

theorem natAbs_sign_le_one (x : ℤ) : x.sign.natAbs ≤ 1 := by
  rcases x with (_ | n) | n
  · decide
  · show (1 : ℤ).natAbs ≤ 1
    decide
  · show (-1 : ℤ).natAbs ≤ 1
    decide

/-- Core behavior of the tracer from a freshly normalized state: both
normalized endpoints are produced (modulo the coordinate un-swap), and the
sequence has one point per major-axis column. -/
theorem Bresenham.run_core (s : Bresenham) (u v : Vec2 ℤ)
    (hcur : s.cur = u) (hdx : s.dx = v.x - u.x) (hdy : s.dy = (v.y - u.y).sign)
    (he : s.e = 0) (hde : s.de = |v.y - u.y| * 2) (hstop : s.stop = v.x)
    (hx : u.x ≤ v.x) (hsl : (v.y - u.y).natAbs ≤ (v.x - u.x).natAbs) :
    (if s.steep then u.yx else u) ∈ s.run ∧ (if s.steep then v.yx else v) ∈ s.run ∧
      s.run.length = (v.x - u.x).toNat + 1 := by
  have hcx : s.cur.x ≤ s.stop := by rw [hcur, hstop]; omega
  have hhead := Bresenham.run_head s hcx
  rw [hcur] at hhead
  have hmem_u : (if s.steep then u.yx else u) ∈ s.run := mem_of_head_eq hhead
  refine ⟨hmem_u, ?_, ?_⟩
  · by_cases hux : u.x = v.x
    · have hyy : v.y = u.y := by omega
      have huv : v = u := by
        have h1 : v = ⟨u.x, u.y⟩ := Vec2.eq_of_xy (by omega) (by omega)
        rw [h1]
      rw [huv]
      exact hmem_u
    · have hdxpos : 0 < s.dx := by rw [hdx]; omega
      have habs := abs_nonneg (v.y - u.y)
      have habs2 : |v.y - u.y| = ((v.y - u.y).natAbs : ℤ) := Int.abs_eq_natAbs _
      obtain ⟨m, hlast, hb1, hb2⟩ := Bresenham.run_getLast s hcx hdxpos
        (by rw [hde]; omega)
        (by rw [hde, hdx]; omega)
        (by rw [he, hdx]; omega)
        (by rw [he, hdx]; omega)
      have hE : s.e + (s.stop - s.cur.x) * s.de - 2 * s.dx * m =
          2 * (v.x - u.x) * (|v.y - u.y| - m) := by
        rw [he, hde, hdx, hstop, hcur]
        ring
      rw [hE, hdx] at hb1 hb2
      have hD : (1 : ℤ) ≤ v.x - u.x := by omega
      have hmeq : m = |v.y - u.y| := by
        by_contra hne
        rcases lt_or_gt_of_ne hne with hlt | hgt
        · have h1 : (1 : ℤ) ≤ |v.y - u.y| - m := by omega
          have h2 : 2 * (v.x - u.x) * 1 ≤ 2 * (v.x - u.x) * (|v.y - u.y| - m) :=
            mul_le_mul_of_nonneg_left h1 (by omega)
          linarith
        · have h1 : |v.y - u.y| - m ≤ -1 := by omega
          have h2 : 2 * (v.x - u.x) * (|v.y - u.y| - m) ≤ 2 * (v.x - u.x) * (-1) :=
            mul_le_mul_of_nonneg_left h1 (by omega)
          linarith
      subst hmeq
      have hyv : s.cur.y + s.dy * |v.y - u.y| = v.y := by
        have hs := Int.sign_mul_abs (v.y - u.y)
        rw [hcur, hdy]
        linarith
      have hvv : (⟨s.stop, s.cur.y + s.dy * |v.y - u.y|⟩ : Vec2 ℤ) = v := by
        rw [hstop, hyv]
      rw [hvv] at hlast
      exact mem_of_getLast_eq hlast
  · rw [Bresenham.run_length, hstop, hcur]
    omega

/-- `Bresenham::new`, fully evaluated in the shallow/un-flipped case. -/
theorem Bresenham.new_case1 (a b : Vec2 ℤ)
    (h1 : ¬(|a.x - b.x| < |a.y - b.y|)) (h2 : ¬(a.x > b.x)) :
    Bresenham.new a b = ⟨a, b.x - a.x, (b.y - a.y).sign, 0, |b.y - a.y| * 2, false, b.x⟩ := by
  rw [Bresenham.new]
  simp [h1, h2, Vec2.yx]

/-- `Bresenham::new` in the shallow/flipped case. -/
theorem Bresenham.new_case2 (a b : Vec2 ℤ)
    (h1 : ¬(|a.x - b.x| < |a.y - b.y|)) (h2 : a.x > b.x) :
    Bresenham.new a b = ⟨b, a.x - b.x, (a.y - b.y).sign, 0, |a.y - b.y| * 2, false, a.x⟩ := by
  rw [Bresenham.new]
  simp [h1, h2, Vec2.yx]

/-- `Bresenham::new` in the steep/un-flipped case. -/
theorem Bresenham.new_case3 (a b : Vec2 ℤ)
    (h1 : |a.x - b.x| < |a.y - b.y|) (h2 : ¬(a.y > b.y)) :
    Bresenham.new a b =
      ⟨⟨a.y, a.x⟩, b.y - a.y, (b.x - a.x).sign, 0, |b.x - a.x| * 2, true, b.y⟩ := by
  rw [Bresenham.new]
  simp [h1, h2, Vec2.yx]

/-- `Bresenham::new` in the steep/flipped case. -/
theorem Bresenham.new_case4 (a b : Vec2 ℤ)
    (h1 : |a.x - b.x| < |a.y - b.y|) (h2 : a.y > b.y) :
    Bresenham.new a b =
      ⟨⟨b.y, b.x⟩, a.y - b.y, (a.x - b.x).sign, 0, |a.x - b.x| * 2, true, a.y⟩ := by
  rw [Bresenham.new]
  simp [h1, h2, Vec2.yx]

/-- C3: for every pair of integer endpoints `a` and `b`, the `Bresenham`
iterator yields a finite sequence that contains both `a` and `b`, has
exactly `max(|b.x - a.x|, |b.y - a.y|) + 1` elements, contains no point
twice, and in which consecutive points differ by at most `1` in each
coordinate (8-connected, no gaps). -/
theorem bresenham_spec (a b : Vec2 ℤ) :
    a ∈ (Bresenham.new a b).run ∧ b ∈ (Bresenham.new a b).run ∧
      (Bresenham.new a b).run.length =
        Max.max (b.x - a.x).natAbs (b.y - a.y).natAbs + 1 ∧
      (Bresenham.new a b).run.Nodup ∧
      (Bresenham.new a b).run.Chain'
        (fun p q => (q.x - p.x).natAbs ≤ 1 ∧ (q.y - p.y).natAbs ≤ 1) := by
  have hnodup := Bresenham.run_nodup (Bresenham.new a b)
  have hdy : ∃ z : ℤ, (Bresenham.new a b).dy = Int.sign z := ⟨_, rfl⟩
  obtain ⟨z, hz⟩ := hdy
  have hchain := Bresenham.run_chain (Bresenham.new a b)
    (by rw [hz]; exact natAbs_sign_le_one z)
  by_cases h1 : |a.x - b.x| < |a.y - b.y|
  · by_cases h2 : a.y > b.y
    · rw [Bresenham.new_case4 a b h1 h2] at hnodup hchain ⊢
      rw [Int.abs_eq_natAbs, Int.abs_eq_natAbs] at h1
      obtain ⟨hm1, hm2, hlen⟩ := Bresenham.run_core
        ⟨⟨b.y, b.x⟩, a.y - b.y, (a.x - b.x).sign, 0, |a.x - b.x| * 2, true, a.y⟩
        ⟨b.y, b.x⟩ ⟨a.y, a.x⟩ rfl rfl rfl rfl rfl rfl
        (by simp only [Vec2.mk_x]; omega)
        (by simp only [Vec2.mk_x, Vec2.mk_y]; omega)
      refine ⟨hm2, hm1, ?_, hnodup, hchain⟩
      rw [hlen]
      simp only [Vec2.mk_x]
      omega
    · rw [Bresenham.new_case3 a b h1 h2] at hnodup hchain ⊢
      rw [Int.abs_eq_natAbs, Int.abs_eq_natAbs] at h1
      obtain ⟨hm1, hm2, hlen⟩ := Bresenham.run_core
        ⟨⟨a.y, a.x⟩, b.y - a.y, (b.x - a.x).sign, 0, |b.x - a.x| * 2, true, b.y⟩
        ⟨a.y, a.x⟩ ⟨b.y, b.x⟩ rfl rfl rfl rfl rfl rfl
        (by simp only [Vec2.mk_x]; omega)
        (by simp only [Vec2.mk_x, Vec2.mk_y]; omega)
      refine ⟨hm1, hm2, ?_, hnodup, hchain⟩
      rw [hlen]
      simp only [Vec2.mk_x]
      omega
  · by_cases h2 : a.x > b.x
    · rw [Bresenham.new_case2 a b h1 h2] at hnodup hchain ⊢
      rw [Int.abs_eq_natAbs, Int.abs_eq_natAbs] at h1
      obtain ⟨hm1, hm2, hlen⟩ := Bresenham.run_core
        ⟨b, a.x - b.x, (a.y - b.y).sign, 0, |a.y - b.y| * 2, false, a.x⟩
        b a rfl rfl rfl rfl rfl rfl (by omega) (by omega)
      refine ⟨hm2, hm1, ?_, hnodup, hchain⟩
      rw [hlen]
      omega
    · rw [Bresenham.new_case1 a b h1 h2] at hnodup hchain ⊢
      rw [Int.abs_eq_natAbs, Int.abs_eq_natAbs] at h1
      obtain ⟨hm1, hm2, hlen⟩ := Bresenham.run_core
        ⟨a, b.x - a.x, (b.y - a.y).sign, 0, |b.y - a.y| * 2, false, b.x⟩
        a b rfl rfl rfl rfl rfl rfl (by omega) (by omega)
      refine ⟨hm1, hm2, ?_, hnodup, hchain⟩
      rw [hlen]
      omega

/-! Per-pixel analysis of the depth-tested draw loop. -/

theorem drawStep_frame_ne {Col : Type} (w : ℕ) (tri : Vertex × Vertex × Vertex) (col : Col)
    (s : RenderState Col) (pb : Vec2 ℤ × Vec3 ℚ) (q : Vec2 ℤ) (hq : pb.1 ≠ q) :
    (drawStep w tri col s pb).frame q = s.frame q := by
  rw [drawStep]
  split
  · exact if_neg (fun hh => hq hh.symm)
  · rfl

theorem drawStep_depth_ne {Col : Type} (w : ℕ) (tri : Vertex × Vertex × Vertex) (col : Col)
    (s : RenderState Col) (pb : Vec2 ℤ × Vec3 ℚ) (j : ℕ) (hj : idx w pb.1 ≠ j) :
    (drawStep w tri col s pb).depth j = s.depth j := by
  rw [drawStep]
  split
  · exact if_neg (fun hh => hj hh.symm)
  · rfl

theorem drawStep_at {Col : Type} (w : ℕ) (tri : Vertex × Vertex × Vertex) (col : Col)
    (s : RenderState Col) (pb : Vec2 ℤ × Vec3 ℚ) :
    (drawStep w tri col s pb).frame pb.1 =
        (if s.depth (idx w pb.1) < zOf tri pb.2 then col else s.frame pb.1) ∧
      (drawStep w tri col s pb).depth (idx w pb.1) =
        (if s.depth (idx w pb.1) < zOf tri pb.2 then zOf tri pb.2 else s.depth (idx w pb.1)) := by
  rw [drawStep]
  by_cases hlt : s.depth (idx w pb.1) < zOf tri pb.2
  · rw [if_pos hlt, if_pos hlt, if_pos hlt]
    exact ⟨if_pos rfl, if_pos rfl⟩
  · rw [if_neg hlt, if_neg hlt, if_neg hlt]
    exact ⟨rfl, rfl⟩

theorem drawStep_depth_mono {Col : Type} (w : ℕ) (tri : Vertex × Vertex × Vertex) (col : Col)
    (s : RenderState Col) (pb : Vec2 ℤ × Vec3 ℚ) (j : ℕ) :
    s.depth j ≤ (drawStep w tri col s pb).depth j := by
  rw [drawStep]
  by_cases hlt : s.depth (idx w pb.1) < zOf tri pb.2
  · rw [if_pos hlt]
    show s.depth j ≤ if j = idx w pb.1 then zOf tri pb.2 else s.depth j
    split
    · next hj => rw [hj]; exact le_of_lt hlt
    · exact le_refl _
  · rw [if_neg hlt]

theorem foldl_frame_ne {Col : Type} (w : ℕ) (tri : Vertex × Vertex × Vertex) (col : Col)
    (l : List (Vec2 ℤ × Vec3 ℚ)) (s : RenderState Col) (q : Vec2 ℤ)
    (hq : ∀ pb ∈ l, pb.1 ≠ q) :
    (l.foldl (drawStep w tri col) s).frame q = s.frame q := by
  induction l generalizing s with
  | nil => rfl
  | cons a l IH =>
    rw [List.foldl_cons, IH _ (fun pb hpb => hq pb (List.mem_cons_of_mem a hpb)),
      drawStep_frame_ne _ _ _ _ _ _ (hq a (List.mem_cons_self a l))]

theorem foldl_depth_ne {Col : Type} (w : ℕ) (tri : Vertex × Vertex × Vertex) (col : Col)
    (l : List (Vec2 ℤ × Vec3 ℚ)) (s : RenderState Col) (j : ℕ)
    (hj : ∀ pb ∈ l, idx w pb.1 ≠ j) :
    (l.foldl (drawStep w tri col) s).depth j = s.depth j := by
  induction l generalizing s with
  | nil => rfl
  | cons a l IH =>
    rw [List.foldl_cons, IH _ (fun pb hpb => hj pb (List.mem_cons_of_mem a hpb)),
      drawStep_depth_ne _ _ _ _ _ _ (hj a (List.mem_cons_self a l))]

theorem foldl_depth_mono {Col : Type} (w : ℕ) (tri : Vertex × Vertex × Vertex) (col : Col)
    (l : List (Vec2 ℤ × Vec3 ℚ)) (s : RenderState Col) (j : ℕ) :
    s.depth j ≤ (l.foldl (drawStep w tri col) s).depth j := by
  induction l generalizing s with
  | nil => exact le_refl _
  | cons a l IH =>
    rw [List.foldl_cons]
    exact le_trans (drawStep_depth_mono w tri col s a j) (IH _)

/-- After a pass, the depth buffer dominates the interpolated depth of every
processed fragment. -/
theorem foldl_depth_ge {Col : Type} (w : ℕ) (tri : Vertex × Vertex × Vertex) (col : Col)
    (l : List (Vec2 ℤ × Vec3 ℚ)) (s : RenderState Col) (pb : Vec2 ℤ × Vec3 ℚ)
    (hpb : pb ∈ l) :
    zOf tri pb.2 ≤ (l.foldl (drawStep w tri col) s).depth (idx w pb.1) := by
  induction l generalizing s with
  | nil => exact absurd hpb (by simp)
  | cons a l IH =>
    rw [List.foldl_cons]
    rcases List.mem_cons.mp hpb with rfl | hpb
    · refine le_trans ?_ (foldl_depth_mono w tri col l _ _)
      obtain ⟨-, hd⟩ := drawStep_at w tri col s pb
      rw [hd]
      split
      · exact le_refl _
      · next hge => exact le_of_not_lt hge
    · exact IH _ hpb

/-- A pass whose every fragment fails the depth test leaves the state
entirely unchanged. -/
theorem foldl_no_write {Col : Type} (w : ℕ) (tri : Vertex × Vertex × Vertex) (col : Col)
    (l : List (Vec2 ℤ × Vec3 ℚ)) (s : RenderState Col)
    (hge : ∀ pb ∈ l, zOf tri pb.2 ≤ s.depth (idx w pb.1)) :
    l.foldl (drawStep w tri col) s = s := by
  induction l with
  | nil => rfl
  | cons a l IH =>
    rw [List.foldl_cons]
    have hstep : drawStep w tri col s a = s := by
      rw [drawStep]
      exact if_neg (not_lt.mpr (hge a (List.mem_cons_self a l)))
    rw [hstep]
    exact IH (fun pb hpb => hge pb (List.mem_cons_of_mem a hpb))

/-- C2: drawing the same triangle (same vertices and color) twice in
succession leaves the pixel buffer and the depth buffer equal to the state
after drawing it once: every fragment of the second draw fails the strict
`<` depth test against the depth values recorded by the first draw, so the
second draw performs no write at all. -/
theorem triangle_idempotent {Col : Type} (w h : ℕ) (tri : Vertex × Vertex × Vertex)
    (col : Col) (st : RenderState Col) :
    triangle w h tri col (triangle w h tri col st) = triangle w h tri col st := by
  conv_lhs => rw [triangle]
  exact foldl_no_write w tri col _ _
    (fun pb hpb => by
      rw [triangle]
      exact foldl_depth_ge w tri col _ st pb hpb)

/-! Pixels yielded by the bounded rasterizer lie in the frame, are pairwise
distinct, and map to pairwise distinct depth-buffer indices. -/

theorem new_bounded_run_bounds (pts : Vec2 ℤ × Vec2 ℤ × Vec2 ℤ) (size : Extent2 ℤ)
    (hw : 1 ≤ size.w) (pr : Vec2 ℤ × Vec3 ℚ)
    (hpr : pr ∈ (Triangle.new_bounded pts size).run) :
    0 ≤ pr.1.x ∧ pr.1.x < size.w ∧ 0 ≤ pr.1.y ∧ pr.1.y < size.h := by
  rw [Triangle.new_bounded_run_eq pts size hw] at hpr
  obtain ⟨h1, h2, h3, h4, -⟩ := (boxScan_mem_iff _ _ _ _ _ _).mp hpr
  rw [Triangle.nb_min_x] at h1
  rw [Triangle.nb_max_x] at h2
  rw [Triangle.nb_min_y] at h3
  rw [Triangle.nb_max_y] at h4
  omega

theorem new_bounded_fst_nodup (pts : Vec2 ℤ × Vec2 ℤ × Vec2 ℤ) (size : Extent2 ℤ)
    (hw : 1 ≤ size.w) :
    ((Triangle.new_bounded pts size).run.map Prod.fst).Nodup := by
  rw [Triangle.new_bounded_run_eq pts size hw]
  refine List.Pairwise.imp ?_ (boxScan_map_fst_pairwise pts _ _ _ _)
  intro a b hab heq
  subst heq
  rcases hab with hlt | ⟨-, hlt⟩ <;> exact absurd hlt (lt_irrefl _)

theorem mul_add_inj (w a b c d : ℕ) (hw : 0 < w) (hb : b < w) (hd : d < w)
    (h : a * w + b = c * w + d) : a = c ∧ b = d := by
  have key : ∀ a c b d : ℕ, b < w → a < c → a * w + b = c * w + d → False := by
    intro a c b d hb hlt heq
    have h2 : (a + 1) * w ≤ c * w := Nat.mul_le_mul_right w hlt
    rw [Nat.succ_mul] at h2
    have : a * w + b < a * w + b :=
      calc a * w + b < a * w + w := Nat.add_lt_add_left hb (a * w)
        _ ≤ c * w := h2
        _ ≤ c * w + d := Nat.le_add_right _ _
        _ = a * w + b := heq.symm
    exact absurd this (lt_irrefl _)
  have hac : a = c := by
    rcases Nat.lt_trichotomy a c with hlt | heq | hgt
    · exact (key a c b d hb hlt h).elim
    · exact heq
    · exact (key c a d b hd hgt h.symm).elim
  subst hac
  exact ⟨rfl, Nat.add_left_cancel h⟩

/-- In-bounds pixels have injective flat depth-buffer indices. -/
theorem idx_inj (w : ℕ) (hw : 0 < w) (p q : Vec2 ℤ)
    (hp1 : 0 ≤ p.x) (hp2 : p.x < (w : ℤ)) (hp3 : 0 ≤ p.y)
    (hq1 : 0 ≤ q.x) (hq2 : q.x < (w : ℤ)) (hq3 : 0 ≤ q.y)
    (hidx : idx w p = idx w q) : p = q := by
  rw [idx, idx] at hidx
  obtain ⟨h1, h2⟩ := mul_add_inj w _ _ _ _ hw (by omega) (by omega) hidx
  exact Vec2.eq_of_xy (show p.x = q.x by omega) (show p.y = q.y by omega)

/-- Per-pixel value of a single triangle draw at a yielded fragment: the
fragment is processed exactly once, and the rest of the pass leaves its
pixel and its depth entry alone. -/
theorem triangle_at {Col : Type} (w h : ℕ) (hw : 1 ≤ w) (tri : Vertex × Vertex × Vertex)
    (col : Col) (st : RenderState Col) (p : Vec2 ℤ) (br : Vec3 ℚ)
    (hmem : (p, br) ∈ (Triangle.new_bounded (ptsOf tri) ⟨(w : ℤ), (h : ℤ)⟩).run) :
    (triangle w h tri col st).frame p =
        (if st.depth (idx w p) < zOf tri br then col else st.frame p) ∧
      (triangle w h tri col st).depth (idx w p) =
        (if st.depth (idx w p) < zOf tri br then zOf tri br else st.depth (idx w p)) := by
  have hwZ : (1 : ℤ) ≤ ((⟨(w : ℤ), (h : ℤ)⟩ : Extent2 ℤ)).w := by
    show (1 : ℤ) ≤ (w : ℤ)
    exact_mod_cast hw
  obtain ⟨l1, l2, hsplit⟩ := List.append_of_mem hmem
  have hnd0 := new_bounded_fst_nodup (ptsOf tri) ⟨(w : ℤ), (h : ℤ)⟩ hwZ
  rw [hsplit, List.map_append, List.map_cons] at hnd0
  have hnd : (l1.map Prod.fst ++ p :: l2.map Prod.fst).Nodup := hnd0
  obtain ⟨-, hnd2, hdisj⟩ := List.nodup_append.mp hnd
  have hp_not1 : p ∉ l1.map Prod.fst := fun hx => hdisj hx (List.mem_cons_self _ _)
  have hp_not2 : p ∉ l2.map Prod.fst := (List.nodup_cons.mp hnd2).1
  have hpb : 0 ≤ p.x ∧ p.x < (w : ℤ) ∧ 0 ≤ p.y ∧ p.y < (h : ℤ) :=
    new_bounded_run_bounds (ptsOf tri) ⟨(w : ℤ), (h : ℤ)⟩ hwZ (p, br) hmem
  have hidx_ne : ∀ pb ∈ (Triangle.new_bounded (ptsOf tri) ⟨(w : ℤ), (h : ℤ)⟩).run,
      pb.1 ≠ p → idx w pb.1 ≠ idx w p := by
    intro pb hpbm hne hcontra
    have hbb : 0 ≤ pb.1.x ∧ pb.1.x < (w : ℤ) ∧ 0 ≤ pb.1.y ∧ pb.1.y < (h : ℤ) :=
      new_bounded_run_bounds (ptsOf tri) ⟨(w : ℤ), (h : ℤ)⟩ hwZ pb hpbm
    exact hne (idx_inj w (by omega) pb.1 p hbb.1 hbb.2.1 hbb.2.2.1 hpb.1 hpb.2.1 hpb.2.2.1
      hcontra)
  have hsub1 : ∀ pb ∈ l1, pb ∈ (Triangle.new_bounded (ptsOf tri) ⟨(w : ℤ), (h : ℤ)⟩).run := by
    intro pb hx
    rw [hsplit]
    exact List.mem_append_left _ hx
  have hsub2 : ∀ pb ∈ l2, pb ∈ (Triangle.new_bounded (ptsOf tri) ⟨(w : ℤ), (h : ℤ)⟩).run := by
    intro pb hx
    rw [hsplit]
    exact List.mem_append_right _ (List.mem_cons_of_mem _ hx)
  have hne1 : ∀ pb ∈ l1, pb.1 ≠ p :=
    fun pb hx heq => hp_not1 (heq ▸ List.mem_map_of_mem Prod.fst hx)
  have hne2 : ∀ pb ∈ l2, pb.1 ≠ p :=
    fun pb hx heq => hp_not2 (heq ▸ List.mem_map_of_mem Prod.fst hx)
  rw [triangle, hsplit, List.foldl_append, List.foldl_cons]
  have hf1 : (l1.foldl (drawStep w tri col) st).frame p = st.frame p :=
    foldl_frame_ne w tri col l1 st p hne1
  have hd1 : (l1.foldl (drawStep w tri col) st).depth (idx w p) = st.depth (idx w p) :=
    foldl_depth_ne w tri col l1 st (idx w p)
      (fun pb hx => hidx_ne pb (hsub1 pb hx) (hne1 pb hx))
  obtain ⟨hfs0, hds0⟩ := drawStep_at w tri col (l1.foldl (drawStep w tri col) st) (p, br)
  have hfs : (drawStep w tri col (l1.foldl (drawStep w tri col) st) (p, br)).frame p =
      if (l1.foldl (drawStep w tri col) st).depth (idx w p) < zOf tri br then col
      else (l1.foldl (drawStep w tri col) st).frame p := hfs0
  have hds : (drawStep w tri col (l1.foldl (drawStep w tri col) st) (p, br)).depth (idx w p) =
      if (l1.foldl (drawStep w tri col) st).depth (idx w p) < zOf tri br then zOf tri br
      else (l1.foldl (drawStep w tri col) st).depth (idx w p) := hds0
  constructor
  · rw [foldl_frame_ne w tri col l2 _ p hne2, hfs, hd1, hf1]
  · rw [foldl_depth_ne w tri col l2 _ (idx w p)
      (fun pb hx => hidx_ne pb (hsub2 pb hx) (hne2 pb hx)), hds, hd1]

/-- A pixel not yielded by the rasterizer keeps its color. -/
theorem triangle_frame_untouched {Col : Type} (w h : ℕ) (tri : Vertex × Vertex × Vertex)
    (col : Col) (st : RenderState Col) (q : Vec2 ℤ)
    (hq : q ∉ (Triangle.new_bounded (ptsOf tri) ⟨(w : ℤ), (h : ℤ)⟩).run.map Prod.fst) :
    (triangle w h tri col st).frame q = st.frame q := by
  rw [triangle]
  exact foldl_frame_ne w tri col _ st q
    (fun pb hpb heq => hq (heq ▸ List.mem_map_of_mem Prod.fst hpb))

/-- The depth entry of an in-bounds pixel not yielded by the rasterizer is
unchanged. -/
theorem triangle_depth_untouched {Col : Type} (w h : ℕ) (hw : 1 ≤ w)
    (tri : Vertex × Vertex × Vertex) (col : Col) (st : RenderState Col) (q : Vec2 ℤ)
    (hq : q ∉ (Triangle.new_bounded (ptsOf tri) ⟨(w : ℤ), (h : ℤ)⟩).run.map Prod.fst)
    (hq1 : 0 ≤ q.x) (hq2 : q.x < (w : ℤ)) (hq3 : 0 ≤ q.y) :
    (triangle w h tri col st).depth (idx w q) = st.depth (idx w q) := by
  have hwZ : (1 : ℤ) ≤ ((⟨(w : ℤ), (h : ℤ)⟩ : Extent2 ℤ)).w := by
    show (1 : ℤ) ≤ (w : ℤ)
    exact_mod_cast hw
  rw [triangle]
  refine foldl_depth_ne w tri col _ st (idx w q) ?_
  intro pb hpb hcontra
  have hb := new_bounded_run_bounds (ptsOf tri) ⟨(w : ℤ), (h : ℤ)⟩ hwZ pb hpb
  have hpq : pb.1 = q :=
    idx_inj w (by omega) pb.1 q hb.1 hb.2.1 hb.2.2.1 hq1 hq2 hq3 hcontra
  exact hq (hpq ▸ List.mem_map_of_mem Prod.fst hpb)

/-! The value of a pixel after drawing two triangles over a depth buffer
initialized to `f32::MIN`, case-split on which of the two rasterizations
yield the pixel. -/

theorem draw_two_at_overlap {Col : Type} (w h : ℕ) (hw : 1 ≤ w)
    (tri1 tri2 : Vertex × Vertex × Vertex) (col1 col2 : Col) (st0 : RenderState Col)
    (hd0 : ∀ i, st0.depth i = f32min) (p : Vec2 ℤ) (br1 br2 : Vec3 ℚ)
    (hm1 : (p, br1) ∈ (Triangle.new_bounded (ptsOf tri1) ⟨(w : ℤ), (h : ℤ)⟩).run)
    (hm2 : (p, br2) ∈ (Triangle.new_bounded (ptsOf tri2) ⟨(w : ℤ), (h : ℤ)⟩).run)
    (hz1 : f32min < zOf tri1 br1) (hz2 : f32min < zOf tri2 br2) :
    (triangle w h tri2 col2 (triangle w h tri1 col1 st0)).frame p =
      if zOf tri1 br1 < zOf tri2 br2 then col2 else col1 := by
  obtain ⟨hf1, hd1⟩ := triangle_at w h hw tri1 col1 st0 p br1 hm1
  rw [hd0] at hf1 hd1
  rw [if_pos hz1] at hf1 hd1
  obtain ⟨hf2, -⟩ := triangle_at w h hw tri2 col2 (triangle w h tri1 col1 st0) p br2 hm2
  rw [hd1, hf1] at hf2
  exact hf2

theorem draw_two_at_covered_first {Col : Type} (w h : ℕ) (hw : 1 ≤ w)
    (tri1 tri2 : Vertex × Vertex × Vertex) (col1 col2 : Col) (st0 : RenderState Col)
    (hd0 : ∀ i, st0.depth i = f32min) (p : Vec2 ℤ) (br1 : Vec3 ℚ)
    (hm1 : (p, br1) ∈ (Triangle.new_bounded (ptsOf tri1) ⟨(w : ℤ), (h : ℤ)⟩).run)
    (hz1 : f32min < zOf tri1 br1)
    (hq2 : p ∉ (Triangle.new_bounded (ptsOf tri2) ⟨(w : ℤ), (h : ℤ)⟩).run.map Prod.fst) :
    (triangle w h tri2 col2 (triangle w h tri1 col1 st0)).frame p = col1 := by
  rw [triangle_frame_untouched w h tri2 col2 _ p hq2]
  obtain ⟨hf1, -⟩ := triangle_at w h hw tri1 col1 st0 p br1 hm1
  rw [hd0] at hf1
  rw [if_pos hz1] at hf1
  exact hf1

theorem draw_two_at_covered_second {Col : Type} (w h : ℕ) (hw : 1 ≤ w)
    (tri1 tri2 : Vertex × Vertex × Vertex) (col1 col2 : Col) (st0 : RenderState Col)
    (hd0 : ∀ i, st0.depth i = f32min) (p : Vec2 ℤ) (br2 : Vec3 ℚ)
    (hm2 : (p, br2) ∈ (Triangle.new_bounded (ptsOf tri2) ⟨(w : ℤ), (h : ℤ)⟩).run)
    (hz2 : f32min < zOf tri2 br2)
    (hq1 : p ∉ (Triangle.new_bounded (ptsOf tri1) ⟨(w : ℤ), (h : ℤ)⟩).run.map Prod.fst) :
    (triangle w h tri2 col2 (triangle w h tri1 col1 st0)).frame p = col2 := by
  have hwZ : (1 : ℤ) ≤ ((⟨(w : ℤ), (h : ℤ)⟩ : Extent2 ℤ)).w := by
    show (1 : ℤ) ≤ (w : ℤ)
    exact_mod_cast hw
  obtain ⟨hf2, -⟩ := triangle_at w h hw tri2 col2 (triangle w h tri1 col1 st0) p br2 hm2
  have hb := new_bounded_run_bounds (ptsOf tri2) ⟨(w : ℤ), (h : ℤ)⟩ hwZ (p, br2) hm2
  have hdu := triangle_depth_untouched w h hw tri1 col1 st0 p hq1 hb.1 hb.2.1 hb.2.2.1
  rw [hdu, hd0] at hf2
  rw [if_pos hz2] at hf2
  exact hf2

/-- C1, amended: besides positive frame dimensions, the interpolated depths
of the yielded fragments must be strictly above the `f32::MIN` sentinel that
initializes the depth buffer (a fragment whose z equals the sentinel is
rejected by the strict `<` test even against the fresh buffer), and the two
triangles must have different interpolated depths at every shared pixel.
Then, for both draw orders: every shared pixel holds the color of the
triangle with the greater (closer) interpolated z there, every pixel yielded
for exactly one triangle holds that triangle's color, and the final pixel
buffers of the two orders are identical. -/
theorem occlusion_order_independent {Col : Type} (w h : ℕ) (hw : 1 ≤ w) (hh : 1 ≤ h)
    (triA triB : Vertex × Vertex × Vertex) (colA colB : Col) (st0 : RenderState Col)
    (hd0 : ∀ i, st0.depth i = f32min)
    (hzA : ∀ pr ∈ (Triangle.new_bounded (ptsOf triA) ⟨(w : ℤ), (h : ℤ)⟩).run,
      f32min < zOf triA pr.2)
    (hzB : ∀ pr ∈ (Triangle.new_bounded (ptsOf triB) ⟨(w : ℤ), (h : ℤ)⟩).run,
      f32min < zOf triB pr.2)
    (hdiff : ∀ prA ∈ (Triangle.new_bounded (ptsOf triA) ⟨(w : ℤ), (h : ℤ)⟩).run,
      ∀ prB ∈ (Triangle.new_bounded (ptsOf triB) ⟨(w : ℤ), (h : ℤ)⟩).run,
        prA.1 = prB.1 → zOf triA prA.2 ≠ zOf triB prB.2) :
    (∀ prA ∈ (Triangle.new_bounded (ptsOf triA) ⟨(w : ℤ), (h : ℤ)⟩).run,
      ∀ prB ∈ (Triangle.new_bounded (ptsOf triB) ⟨(w : ℤ), (h : ℤ)⟩).run,
        prA.1 = prB.1 →
          (triangle w h triB colB (triangle w h triA colA st0)).frame prA.1 =
            (if zOf triB prB.2 < zOf triA prA.2 then colA else colB) ∧
          (triangle w h triA colA (triangle w h triB colB st0)).frame prA.1 =
            (if zOf triB prB.2 < zOf triA prA.2 then colA else colB)) ∧
    (∀ prA ∈ (Triangle.new_bounded (ptsOf triA) ⟨(w : ℤ), (h : ℤ)⟩).run,
        prA.1 ∉ (Triangle.new_bounded (ptsOf triB) ⟨(w : ℤ), (h : ℤ)⟩).run.map Prod.fst →
          (triangle w h triB colB (triangle w h triA colA st0)).frame prA.1 = colA ∧
          (triangle w h triA colA (triangle w h triB colB st0)).frame prA.1 = colA) ∧
    (∀ prB ∈ (Triangle.new_bounded (ptsOf triB) ⟨(w : ℤ), (h : ℤ)⟩).run,
        prB.1 ∉ (Triangle.new_bounded (ptsOf triA) ⟨(w : ℤ), (h : ℤ)⟩).run.map Prod.fst →
          (triangle w h triB colB (triangle w h triA colA st0)).frame prB.1 = colB ∧
          (triangle w h triA colA (triangle w h triB colB st0)).frame prB.1 = colB) ∧
    (triangle w h triB colB (triangle w h triA colA st0)).frame =
      (triangle w h triA colA (triangle w h triB colB st0)).frame := by
  refine ⟨?_, ?_, ?_, ?_⟩
  · rintro ⟨pA, brA⟩ hmA ⟨pB, brB⟩ hmB heq
    obtain rfl : pA = pB := heq
    have hne : zOf triA brA ≠ zOf triB brB := hdiff _ hmA _ hmB rfl
    constructor
    · show (triangle w h triB colB (triangle w h triA colA st0)).frame pA =
        if zOf triB brB < zOf triA brA then colA else colB
      rw [draw_two_at_overlap w h hw triA triB colA colB st0 hd0 pA brA brB hmA hmB
        (hzA _ hmA) (hzB _ hmB)]
      by_cases hlt : zOf triA brA < zOf triB brB
      · rw [if_pos hlt, if_neg (lt_asymm hlt)]
      · rw [if_neg hlt, if_pos (lt_of_le_of_ne (le_of_not_lt hlt) (Ne.symm hne))]
    · show (triangle w h triA colA (triangle w h triB colB st0)).frame pA =
        if zOf triB brB < zOf triA brA then colA else colB
      exact draw_two_at_overlap w h hw triB triA colB colA st0 hd0 pA brB brA hmB hmA
        (hzB _ hmB) (hzA _ hmA)
  · rintro ⟨pA, brA⟩ hmA hnB
    have hnB' : pA ∉ (Triangle.new_bounded (ptsOf triB) ⟨(w : ℤ), (h : ℤ)⟩).run.map
        Prod.fst := hnB
    constructor
    · show (triangle w h triB colB (triangle w h triA colA st0)).frame pA = colA
      exact draw_two_at_covered_first w h hw triA triB colA colB st0 hd0 pA brA hmA
        (hzA _ hmA) hnB'
    · show (triangle w h triA colA (triangle w h triB colB st0)).frame pA = colA
      exact draw_two_at_covered_second w h hw triB triA colB colA st0 hd0 pA brA hmA
        (hzA _ hmA) hnB'
  · rintro ⟨pB, brB⟩ hmB hnA
    have hnA' : pB ∉ (Triangle.new_bounded (ptsOf triA) ⟨(w : ℤ), (h : ℤ)⟩).run.map
        Prod.fst := hnA
    constructor
    · show (triangle w h triB colB (triangle w h triA colA st0)).frame pB = colB
      exact draw_two_at_covered_second w h hw triA triB colA colB st0 hd0 pB brB hmB
        (hzB _ hmB) hnA'
    · show (triangle w h triA colA (triangle w h triB colB st0)).frame pB = colB
      exact draw_two_at_covered_first w h hw triB triA colB colA st0 hd0 pB brB hmB
        (hzB _ hmB) hnA'
  · funext q
    by_cases hqA : q ∈ (Triangle.new_bounded (ptsOf triA) ⟨(w : ℤ), (h : ℤ)⟩).run.map Prod.fst
    · obtain ⟨prA, hmA0, hfA⟩ := List.mem_map.mp hqA
      have hmA : (q, prA.2) ∈ (Triangle.new_bounded (ptsOf triA) ⟨(w : ℤ), (h : ℤ)⟩).run := by
        rw [← hfA]
        exact hmA0
      by_cases hqB : q ∈ (Triangle.new_bounded (ptsOf triB) ⟨(w : ℤ), (h : ℤ)⟩).run.map
          Prod.fst
      · obtain ⟨prB, hmB0, hfB⟩ := List.mem_map.mp hqB
        have hmB : (q, prB.2) ∈
            (Triangle.new_bounded (ptsOf triB) ⟨(w : ℤ), (h : ℤ)⟩).run := by
          rw [← hfB]
          exact hmB0
        rw [draw_two_at_overlap w h hw triA triB colA colB st0 hd0 q prA.2 prB.2 hmA hmB
            (hzA (q, prA.2) hmA) (hzB (q, prB.2) hmB),
          draw_two_at_overlap w h hw triB triA colB colA st0 hd0 q prB.2 prA.2 hmB hmA
            (hzB (q, prB.2) hmB) (hzA (q, prA.2) hmA)]
        have hne : zOf triA prA.2 ≠ zOf triB prB.2 :=
          hdiff (q, prA.2) hmA (q, prB.2) hmB rfl
        by_cases hlt : zOf triA prA.2 < zOf triB prB.2
        · rw [if_pos hlt, if_neg (lt_asymm hlt)]
        · rw [if_neg hlt, if_pos (lt_of_le_of_ne (le_of_not_lt hlt) (Ne.symm hne))]
      · rw [draw_two_at_covered_first w h hw triA triB colA colB st0 hd0 q prA.2 hmA
            (hzA (q, prA.2) hmA) hqB,
          draw_two_at_covered_second w h hw triB triA colB colA st0 hd0 q prA.2 hmA
            (hzA (q, prA.2) hmA) hqB]
    · by_cases hqB : q ∈ (Triangle.new_bounded (ptsOf triB) ⟨(w : ℤ), (h : ℤ)⟩).run.map
          Prod.fst
      · obtain ⟨prB, hmB0, hfB⟩ := List.mem_map.mp hqB
        have hmB : (q, prB.2) ∈
            (Triangle.new_bounded (ptsOf triB) ⟨(w : ℤ), (h : ℤ)⟩).run := by
          rw [← hfB]
          exact hmB0
        rw [draw_two_at_covered_second w h hw triA triB colA colB st0 hd0 q prB.2 hmB
            (hzB (q, prB.2) hmB) hqA,
          draw_two_at_covered_first w h hw triB triA colB colA st0 hd0 q prB.2 hmB
            (hzB (q, prB.2) hmB) hqA]
      · rw [triangle_frame_untouched w h triB colB (triangle w h triA colA st0) q hqB,
          triangle_frame_untouched w h triA colA st0 q hqA,
          triangle_frame_untouched w h triA colA (triangle w h triB colB st0) q hqA,
          triangle_frame_untouched w h triB colB st0 q hqB]

/-! Concrete instances for the occlusion analysis: two triangle vertex
triples covering the single pixel of a `1x1` frame at depths `0` and `1`,
and a pair on a `2x1` frame where one triangle sits exactly at the
`f32::MIN` sentinel depth. -/

def wtriA : Vertex × Vertex × Vertex :=
  (⟨⟨0, 0, 0⟩, ⟨0, 0, 0⟩, ⟨0, 0⟩⟩, ⟨⟨1, 0, 0⟩, ⟨0, 0, 0⟩, ⟨0, 0⟩⟩,
    ⟨⟨0, 1, 0⟩, ⟨0, 0, 0⟩, ⟨0, 0⟩⟩)

def wtriB : Vertex × Vertex × Vertex :=
  (⟨⟨0, 0, 1⟩, ⟨0, 0, 0⟩, ⟨0, 0⟩⟩, ⟨⟨1, 0, 1⟩, ⟨0, 0, 0⟩, ⟨0, 0⟩⟩,
    ⟨⟨0, 1, 1⟩, ⟨0, 0, 0⟩, ⟨0, 0⟩⟩)

def wst0 : RenderState ℕ := ⟨fun _ => 0, fun _ => f32min⟩

def ctriA : Vertex × Vertex × Vertex :=
  (⟨⟨0, 0, f32min⟩, ⟨0, 0, 0⟩, ⟨0, 0⟩⟩, ⟨⟨3, 0, f32min⟩, ⟨0, 0, 0⟩, ⟨0, 0⟩⟩,
    ⟨⟨0, 3, f32min⟩, ⟨0, 0, 0⟩, ⟨0, 0⟩⟩)

def ctriB : Vertex × Vertex × Vertex :=
  (⟨⟨1, 0, 0⟩, ⟨0, 0, 0⟩, ⟨0, 0⟩⟩, ⟨⟨3, 0, 0⟩, ⟨0, 0, 0⟩, ⟨0, 0⟩⟩,
    ⟨⟨1, 3, 0⟩, ⟨0, 0, 0⟩, ⟨0, 0⟩⟩)

def cst0 : RenderState ℕ := ⟨fun _ => 0, fun _ => f32min⟩

/-- C1 witness: on a `1x1` frame, the two unit triangles at depths `0`
(color `1`) and `1` (color `2`) satisfy all hypotheses of the amended
occlusion theorem, so the two draw orders produce identical pixel
buffers. -/
theorem occlusion_order_independent_witness :
    (1 ≤ 1) ∧
      (triangle 1 1 wtriB 2 (triangle 1 1 wtriA 1 wst0)).frame =
        (triangle 1 1 wtriA 1 (triangle 1 1 wtriB 2 wst0)).frame := by
  have hptsA : ptsOf wtriA = (⟨0, 0⟩, ⟨1, 0⟩, ⟨0, 1⟩) := by decide
  have hptsB : ptsOf wtriB = (⟨0, 0⟩, ⟨1, 0⟩, ⟨0, 1⟩) := by decide
  have hbar : into_barycentric ⟨0, 0⟩ (⟨0, 0⟩, ⟨1, 0⟩, ⟨0, 1⟩) = some ⟨1, 0, 0⟩ := by
    rw [into_barycentric, barycentric]
    norm_num [Vec2.toQ, Vec2.dot]
  have hnb : Triangle.new_bounded (⟨0, 0⟩, ⟨1, 0⟩, ⟨0, 1⟩) (⟨1, 1⟩ : Extent2 ℤ) =
      { cur := ⟨0, 0⟩, pts := (⟨0, 0⟩, ⟨1, 0⟩, ⟨0, 1⟩), min := ⟨0, 0⟩, max := ⟨0, 0⟩ } := by
    decide
  have hrun : (Triangle.new_bounded (⟨0, 0⟩, ⟨1, 0⟩, ⟨0, 1⟩) (⟨1, 1⟩ : Extent2 ℤ)).run =
      [(⟨0, 0⟩, ⟨1, 0, 0⟩)] := by
    rw [hnb, Triangle.run]
    rw [dif_pos (by norm_num)]
    rw [Triangle.rowRun]
    rw [dif_pos (by norm_num)]
    simp only [hbar]
    rw [if_pos (by norm_num)]
    rw [Triangle.run]
    rw [dif_neg (by norm_num)]
    exact List.append_nil _
  refine ⟨le_refl 1, (@occlusion_order_independent ℕ 1 1 (le_refl 1) (le_refl 1)
    wtriA wtriB 1 2 wst0 (fun i => rfl) ?_ ?_ ?_).2.2.2⟩
  · intro pr hpr
    have hpr2 : pr ∈ (Triangle.new_bounded (ptsOf wtriA) (⟨1, 1⟩ : Extent2 ℤ)).run := hpr
    rw [hptsA, hrun] at hpr2
    obtain rfl := List.mem_singleton.mp hpr2
    norm_num [zOf, f32min, wtriA]
  · intro pr hpr
    have hpr2 : pr ∈ (Triangle.new_bounded (ptsOf wtriB) (⟨1, 1⟩ : Extent2 ℤ)).run := hpr
    rw [hptsB, hrun] at hpr2
    obtain rfl := List.mem_singleton.mp hpr2
    norm_num [zOf, f32min, wtriB]
  · intro prA hmA prB hmB heq
    have hmA2 : prA ∈ (Triangle.new_bounded (ptsOf wtriA) (⟨1, 1⟩ : Extent2 ℤ)).run := hmA
    have hmB2 : prB ∈ (Triangle.new_bounded (ptsOf wtriB) (⟨1, 1⟩ : Extent2 ℤ)).run := hmB
    rw [hptsA, hrun] at hmA2
    rw [hptsB, hrun] at hmB2
    obtain rfl := List.mem_singleton.mp hmA2
    obtain rfl := List.mem_singleton.mp hmB2
    norm_num [zOf, wtriA, wtriB]

/-- C1 counterexample to the unamended claim: on a `2x1` frame with the
depth buffer at `f32::MIN`, a triangle whose interpolated depth everywhere
equals `f32::MIN` is rejected by the strict `<` test even against the fresh
buffer, so the pixel `(0,0)` — rasterized for that triangle only — never
receives its color `1` in either draw order, contradicting "pixels covered
by only one triangle hold that triangle's color". -/
theorem occlusion_single_cover_fails :
    ((⟨⟨0, 0⟩, ⟨1, 0, 0⟩⟩ : Vec2 ℤ × Vec3 ℚ) ∈
        (Triangle.new_bounded (ptsOf ctriA) (⟨2, 1⟩ : Extent2 ℤ)).run) ∧
      ((⟨0, 0⟩ : Vec2 ℤ) ∉
        (Triangle.new_bounded (ptsOf ctriB) (⟨2, 1⟩ : Extent2 ℤ)).run.map Prod.fst) ∧
      (∀ i, cst0.depth i = f32min) ∧
      (triangle 2 1 ctriB 2 (triangle 2 1 ctriA 1 cst0)).frame ⟨0, 0⟩ ≠ 1 ∧
      (triangle 2 1 ctriA 1 (triangle 2 1 ctriB 2 cst0)).frame ⟨0, 0⟩ ≠ 1 := by
  have hptsA : ptsOf ctriA = (⟨0, 0⟩, ⟨3, 0⟩, ⟨0, 3⟩) := by decide
  have hptsB : ptsOf ctriB = (⟨1, 0⟩, ⟨3, 0⟩, ⟨1, 3⟩) := by decide
  have hnbA : Triangle.new_bounded (⟨0, 0⟩, ⟨3, 0⟩, ⟨0, 3⟩) (⟨2, 1⟩ : Extent2 ℤ) =
      { cur := ⟨0, 0⟩, pts := (⟨0, 0⟩, ⟨3, 0⟩, ⟨0, 3⟩), min := ⟨0, 0⟩, max := ⟨1, 0⟩ } := by
    decide
  have hnbB : Triangle.new_bounded (⟨1, 0⟩, ⟨3, 0⟩, ⟨1, 3⟩) (⟨2, 1⟩ : Extent2 ℤ) =
      { cur := ⟨1, 0⟩, pts := (⟨1, 0⟩, ⟨3, 0⟩, ⟨1, 3⟩), min := ⟨1, 0⟩, max := ⟨1, 0⟩ } := by
    decide
  have hbarA0 : into_barycentric ⟨0, 0⟩ (⟨0, 0⟩, ⟨3, 0⟩, ⟨0, 3⟩) = some ⟨1, 0, 0⟩ := by
    rw [into_barycentric, barycentric]
    norm_num [Vec2.toQ, Vec2.dot]
  have hbarA1 : into_barycentric ⟨1, 0⟩ (⟨0, 0⟩, ⟨3, 0⟩, ⟨0, 3⟩) =
      some ⟨2 / 3, 1 / 3, 0⟩ := by
    rw [into_barycentric, barycentric]
    norm_num [Vec2.toQ, Vec2.dot]
  have hbarB1 : into_barycentric ⟨1, 0⟩ (⟨1, 0⟩, ⟨3, 0⟩, ⟨1, 3⟩) = some ⟨1, 0, 0⟩ := by
    rw [into_barycentric, barycentric]
    norm_num [Vec2.toQ, Vec2.dot]
  have hfragA0 : Triangle.frag (⟨0, 0⟩, ⟨3, 0⟩, ⟨0, 3⟩) ⟨0, 0⟩ =
      some (⟨0, 0⟩, ⟨1, 0, 0⟩) := by
    simp only [Triangle.frag, hbarA0]
    rw [if_pos (by norm_num)]
  have hfragA1 : Triangle.frag (⟨0, 0⟩, ⟨3, 0⟩, ⟨0, 3⟩) ⟨1, 0⟩ =
      some (⟨1, 0⟩, ⟨2 / 3, 1 / 3, 0⟩) := by
    simp only [Triangle.frag, hbarA1]
    rw [if_pos (by norm_num)]
  have hrunA : (Triangle.new_bounded (⟨0, 0⟩, ⟨3, 0⟩, ⟨0, 3⟩) (⟨2, 1⟩ : Extent2 ℤ)).run =
      [(⟨0, 0⟩, ⟨1, 0, 0⟩), (⟨1, 0⟩, ⟨2 / 3, 1 / 3, 0⟩)] := by
    rw [hnbA, Triangle.run]
    rw [dif_pos (by norm_num)]
    rw [Triangle.run]
    rw [dif_neg (by norm_num)]
    rw [List.append_nil]
    dsimp only
    rw [Triangle.rowRun_eq]
    rw [show Triangle.rowCols 0 1 = [0, 1] from by decide]
    rw [List.map_cons, List.map_cons, List.map_nil]
    rw [List.filterMap_cons_some hfragA0, List.filterMap_cons_some hfragA1,
      List.filterMap_nil]
  have hrunB : (Triangle.new_bounded (⟨1, 0⟩, ⟨3, 0⟩, ⟨1, 3⟩) (⟨2, 1⟩ : Extent2 ℤ)).run =
      [(⟨1, 0⟩, ⟨1, 0, 0⟩)] := by
    rw [hnbB, Triangle.run]
    rw [dif_pos (by norm_num)]
    rw [Triangle.rowRun]
    rw [dif_pos (by norm_num)]
    simp only [hbarB1]
    rw [if_pos (by norm_num)]
    rw [Triangle.run]
    rw [dif_neg (by norm_num)]
    exact List.append_nil _
  have hzA : ∀ pb ∈ (Triangle.new_bounded (⟨0, 0⟩, ⟨3, 0⟩, ⟨0, 3⟩) (⟨2, 1⟩ : Extent2 ℤ)).run,
      zOf ctriA pb.2 ≤ f32min := by
    intro pb hpb
    rw [hrunA] at hpb
    rcases List.mem_cons.mp hpb with rfl | hpb
    · show zOf ctriA ⟨1, 0, 0⟩ ≤ f32min
      norm_num [zOf, ctriA]
    · obtain rfl := List.mem_singleton.mp hpb
      show zOf ctriA ⟨2 / 3, 1 / 3, 0⟩ ≤ f32min
      rw [zOf]
      show f32min * (2 / 3) + f32min * (1 / 3) + f32min * 0 ≤ f32min
      norm_num [f32min]
  have hnotB : (⟨0, 0⟩ : Vec2 ℤ) ∉
      (Triangle.new_bounded (ptsOf ctriB) (⟨2, 1⟩ : Extent2 ℤ)).run.map Prod.fst := by
    rw [hptsB, hrunB]
    decide
  have hA1 : triangle 2 1 ctriA 1 cst0 = cst0 := by
    rw [triangle]
    refine foldl_no_write 2 ctriA 1 _ cst0 ?_
    intro pb hpb
    have hpb2 : pb ∈
        (Triangle.new_bounded (ptsOf ctriA) (⟨2, 1⟩ : Extent2 ℤ)).run := hpb
    rw [hptsA] at hpb2
    exact hzA pb hpb2
  have hA2 : triangle 2 1 ctriA 1 (triangle 2 1 ctriB 2 cst0) =
      triangle 2 1 ctriB 2 cst0 := by
    conv_lhs => rw [triangle]
    refine foldl_no_write 2 ctriA 1 _ _ ?_
    intro pb hpb
    have hpb2 : pb ∈
        (Triangle.new_bounded (ptsOf ctriA) (⟨2, 1⟩ : Extent2 ℤ)).run := hpb
    rw [hptsA] at hpb2
    have hmono : cst0.depth (idx 2 pb.1) ≤
        (triangle 2 1 ctriB 2 cst0).depth (idx 2 pb.1) := by
      rw [triangle]
      exact foldl_depth_mono 2 ctriB 2 _ cst0 (idx 2 pb.1)
    exact le_trans (hzA pb hpb2) hmono
  refine ⟨?_, hnotB, fun i => rfl, ?_, ?_⟩
  · rw [hptsA, hrunA]
    exact List.mem_cons_self _ _
  · rw [hA1, triangle_frame_untouched 2 1 ctriB 2 cst0 ⟨0, 0⟩ hnotB]
    decide
  · rw [hA2, triangle_frame_untouched 2 1 ctriB 2 cst0 ⟨0, 0⟩ hnotB]
    decide

/-!
## Pixel iteration — `framework/src/bitmap.rs`, `framework/src/frame.rs`

```rust
pub fn iter_pixels(&self) -> impl Iterator<Item = (Vec2<usize>, &Rgba<u8>)> + '_
{
    let w = self.width();
    let h = self.height();

    self.pixels()
        .iter()
        .enumerate()
        .map(move |(i, px)| (Vec2::new(i % w, i / h), px))
}
```

`iter_pixels_mut`, `par_iter_pixels` and `par_iter_pixels_mut` in
`bitmap.rs`, and `Frame::iter_pixels` / `Frame::iter_pixels_mut` in
`frame.rs`, use the identical index-to-coordinate closure
`(Vec2::new(i % w, i / h), px)`.  The pixel slice is modelled as a list,
enumeration as `List.enum`.
-/

/-- `Bitmap::iter_pixels` (and its mutable/parallel/`Frame` variants): each
buffer element is paired with the coordinates `(i % w, i / h)` computed by
the source. -/
def iter_pixels {α : Type} (w h : ℕ) (px : List α) : List (Vec2 ℕ × α) :=
  px.enum.map (fun ip => (⟨ip.1 % w, ip.1 / h⟩, ip.2))

/-- C7 counterexample: on a `2x1` bitmap the element at index `i = 1` is
paired with `(1 % 2, 1 / 1) = (1, 1)` by the code (which divides by the
height), while the claimed row-major coordinates are
`(i % w, i / w) = (1, 0)`. -/
theorem iter_pixels_wrong_row :
    iter_pixels 2 1 [10, 20] = [(⟨0, 0⟩, 10), (⟨1, 1⟩, 20)] ∧
      (1 : ℕ) / 1 = 1 ∧ (1 : ℕ) / 2 = 0 ∧
      ¬ ((⟨1, 1⟩ : Vec2 ℕ) = ⟨1 % 2, 1 / 2⟩) := by
  refine ⟨rfl, rfl, rfl, by decide⟩

/-!
## Single-pixel draw — `framework/src/bitmap.rs`

```rust
pub fn draw_pixel(&mut self, pos: impl Into<Vec2<isize>>, col: impl Into<Rgba<u8>>)
{
    let pos = pos.into();
    let ind = (pos.y as usize * self.width() + pos.x as usize) * 4;

    self
        .raw_pixels_mut()[ind..ind + 4]
        .copy_from_slice(&col.into());
}
```

The `as usize` casts wrap negative values modulo `2^64` and `usize`
arithmetic wraps; since `%` distributes over the sum and products, a single
outer reduction models the chained wrapping operations.  The slice
`[ind..ind+4]` panics exactly when `ind + 4` exceeds the buffer length
(`copy_from_slice` itself cannot fail: both slices then have length 4);
panic is modelled as `none`.
-/

/-- The `as usize` cast of an `isize` value (wrap modulo `2^64`). -/
def usizeOf (z : ℤ) : ℕ := (z % 2 ^ 64).toNat

/-- `Bitmap::draw_pixel` on a byte buffer `buf` of a bitmap of width `w`:
`none` models the out-of-bounds slice panic. -/
def draw_pixel {β : Type} (w : ℕ) (buf : List β) (pos : Vec2 ℤ) (col : β × β × β × β) :
    Option (List β) :=
  let ind := (usizeOf pos.y * w + usizeOf pos.x) * 4 % 2 ^ 64
  if ind + 4 ≤ buf.length then
    some (buf.take ind ++ [col.1, col.2.1, col.2.2.1, col.2.2.2] ++ buf.drop (ind + 4))
  else
    none

/-- Replacing the `m` elements of `l` from position `n` by `mid`: length is
preserved, the slice reads back, and everything outside it is unchanged. -/
theorem splice_get {β : Type} (l mid : List β) (n m : ℕ) (hn : n + m ≤ l.length)
    (hmid : mid.length = m) :
    (l.take n ++ mid ++ l.drop (n + m)).length = l.length ∧
      (∀ k, k < m → (l.take n ++ mid ++ l.drop (n + m)).get? (n + k) = mid.get? k) ∧
      (∀ j, j < n ∨ n + m ≤ j →
        (l.take n ++ mid ++ l.drop (n + m)).get? j = l.get? j) := by
  have htake : (l.take n).length = n := by
    rw [List.length_take]
    omega
  have hpre : (l.take n ++ mid).length = n + m := by
    rw [List.length_append, htake, hmid]
  refine ⟨?_, ?_, ?_⟩
  · rw [List.append_assoc, List.length_append, htake, List.length_append, hmid,
      List.length_drop]
    omega
  · intro k hk
    rw [List.get?_append (by rw [hpre]; omega)]
    rw [List.get?_append_right (by rw [htake]; omega)]
    rw [htake]
    congr 1
    omega
  · intro j hj
    rcases hj with hj | hj
    · rw [List.get?_append (by rw [hpre]; omega)]
      rw [List.get?_append (by rw [htake]; omega)]
      exact List.get?_take hj
    · rw [List.get?_append_right (by rw [hpre]; omega)]
      rw [hpre, List.get?_drop]
      congr 1
      omega

/-- C10: for an in-range non-negative position (within the `isize`/`usize`
ranges, so the casts and the index arithmetic do not wrap), `draw_pixel`
computes the flat byte index `(pos.y * w + pos.x) * 4` — with no constraint
`pos.x < w`, so an out-of-range `x` lands on a later row — panics exactly
when the 4-byte range extends past the end of the buffer, and otherwise
writes exactly those 4 bytes, leaving every other byte unchanged. -/
theorem draw_pixel_spec {β : Type} (w h : ℕ) (buf : List β) (pos : Vec2 ℤ)
    (col : β × β × β × β)
    (hbuf : buf.length = w * h * 4)
    (hx0 : 0 ≤ pos.x) (hy0 : 0 ≤ pos.y)
    (hx1 : pos.x < 2 ^ 64) (hy1 : pos.y < 2 ^ 64)
    (hov : (pos.y.toNat * w + pos.x.toNat) * 4 + 4 ≤ 2 ^ 64) :
    (draw_pixel w buf pos col = none ↔
        buf.length < (pos.y.toNat * w + pos.x.toNat) * 4 + 4) ∧
      ((pos.y.toNat * w + pos.x.toNat) * 4 + 4 ≤ buf.length →
        ∃ out, draw_pixel w buf pos col = some out ∧
          out.length = buf.length ∧
          out.get? ((pos.y.toNat * w + pos.x.toNat) * 4) = some col.1 ∧
          out.get? ((pos.y.toNat * w + pos.x.toNat) * 4 + 1) = some col.2.1 ∧
          out.get? ((pos.y.toNat * w + pos.x.toNat) * 4 + 2) = some col.2.2.1 ∧
          out.get? ((pos.y.toNat * w + pos.x.toNat) * 4 + 3) = some col.2.2.2 ∧
          (∀ j : ℕ, j < (pos.y.toNat * w + pos.x.toNat) * 4 ∨
              (pos.y.toNat * w + pos.x.toNat) * 4 + 4 ≤ j →
            out.get? j = buf.get? j)) := by
  have huy : usizeOf pos.y = pos.y.toNat := by
    rw [usizeOf, Int.emod_eq_of_lt hy0 hy1]
  have hux : usizeOf pos.x = pos.x.toNat := by
    rw [usizeOf, Int.emod_eq_of_lt hx0 hx1]
  have hmod : (usizeOf pos.y * w + usizeOf pos.x) * 4 % 2 ^ 64 =
      (pos.y.toNat * w + pos.x.toNat) * 4 := by
    rw [huy, hux]
    exact Nat.mod_eq_of_lt (by omega)
  rw [draw_pixel, hmod]
  by_cases hc : (pos.y.toNat * w + pos.x.toNat) * 4 + 4 ≤ buf.length
  · rw [if_pos hc]
    constructor
    · constructor
      · intro hs
        exact Option.noConfusion hs
      · intro hlt
        exact absurd hlt (not_lt.mpr hc)
    · intro hin
      obtain ⟨hlen2, hmid, hout⟩ := splice_get buf [col.1, col.2.1, col.2.2.1, col.2.2.2]
        ((pos.y.toNat * w + pos.x.toNat) * 4) 4 (by omega) rfl
      refine ⟨_, rfl, hlen2, ?_, ?_, ?_, ?_, hout⟩
      · have h0 := hmid 0 (by norm_num)
        rw [Nat.add_zero] at h0
        exact h0
      · exact hmid 1 (by norm_num)
      · exact hmid 2 (by norm_num)
      · exact hmid 3 (by norm_num)
  · rw [if_neg hc]
    constructor
    · constructor
      · intro hs
        omega
      · intro hlt
        rfl
    · intro hin
      exact absurd hin hc

/-- Witness instantiating `draw_pixel` on a `2x2` bitmap at position
`(3, 0)` — an `x` beyond the width, landing at byte 12, the second pixel of
row 1 — with a 16-byte buffer. -/
theorem draw_pixel_spec_witness :
    ∃ out, draw_pixel 2 (List.replicate 16 (0 : ℕ)) ⟨3, 0⟩ (9, 9, 9, 9) = some out ∧
      out.get? 12 = some 9 := by
  obtain ⟨out, hsome, -, hg0, -, -, -, -⟩ :=
    (draw_pixel_spec 2 2 (List.replicate 16 (0 : ℕ)) ⟨3, 0⟩ (9, 9, 9, 9)
      (by simp) (by norm_num) (by norm_num) (by norm_num) (by norm_num)
      (by decide)).2 (by simp)
  exact ⟨out, hsome, hg0⟩

/-!
## Blit — `framework/src/bitmap.rs`, `Bitmap::draw_bitmap`

```rust
pub fn draw_bitmap(&mut self, src: &Bitmap<impl Buf>, pos: impl Into<Vec2<isize>>)
{
    let pos: Vec2<isize> = pos.into();

    let dst_size: Vec2<isize> = self.size().as_::<isize>().into();
    let src_size: Vec2<isize> = src.size().as_::<isize>().into();

    let src_buf = src.raw_pixels();
    let dst_buf = self.raw_pixels_mut();

    // as you iterate src's pixels; [0, src_width] and [0, src_height]
    let src_min = pos.map2(src_size, |p, s| (if p < 0 { -p } else { 0 }).min(s));
    let src_max = pos.map3(src_size, dst_size, |p, ss, ds| if p + ss > ds { ds - p } else { ss });

    // as you copy to dst's pixels; [0, dst_width] and [0, dst_height]
    let dst_min_x = if pos.x < 0 { 0 } else { pos.x };
    let dst_max_x = dst_min_x + (src_max.x - src_min.x);

    // nothing to copy
    if dst_max_x < dst_min_x
    {
        return;
    }

    // iterate vertically
    for y in src_min.y..src_max.y
    {
        let src_str = ((y * src_size.x * 4) + (src_min.x * 4)) as usize;
        let src_end = ((y * src_size.x * 4) + (src_max.x * 4)) as usize;

        let dst_str = (((y + pos.y) * dst_size.x * 4) + (dst_min_x * 4)) as usize;
        let dst_end = (((y + pos.y) * dst_size.x * 4) + (dst_max_x * 4)) as usize;

        // copy entire horizontal segments at once
        dst_buf[dst_str..dst_end].copy_from_slice(&src_buf[src_str..src_end]);
    }
}
```

Each row iteration slices both buffers and copies; `dst_buf[s..e]` panics
unless `s ≤ e ≤ len`, and `copy_from_slice` panics unless the two slices
have equal length — `spliceSeg` returns `none` in exactly those cases.
The `as usize` casts of the (possibly negative) `isize` indices are
modelled by `usizeOf`.
-/

/-- One `dst_buf[dstStr..dstEnd].copy_from_slice(&src[srcStr..srcEnd])`:
`none` models the slice-range and length-mismatch panics. -/
def spliceSeg {β : Type} (dst : List β) (dstStr dstEnd : ℕ) (src : List β)
    (srcStr srcEnd : ℕ) : Option (List β) :=
  if dstStr ≤ dstEnd ∧ dstEnd ≤ dst.length ∧ srcStr ≤ srcEnd ∧ srcEnd ≤ src.length ∧
      dstEnd - dstStr = srcEnd - srcStr then
    some (dst.take dstStr ++ (src.drop srcStr).take (srcEnd - srcStr) ++ dst.drop dstEnd)
  else
    none

/-- `Bitmap::draw_bitmap` on the raw byte buffers: destination `dw x dh`,
source `sw x sh`, offset `pos`. -/
def draw_bitmap {β : Type} (dw dh sw sh : ℕ) (dst src : List β) (pos : Vec2 ℤ) :
    Option (List β) :=
  let srcMinX : ℤ := Min.min (if pos.x < 0 then -pos.x else 0) (sw : ℤ)
  let srcMinY : ℤ := Min.min (if pos.y < 0 then -pos.y else 0) (sh : ℤ)
  let srcMaxX : ℤ := if pos.x + (sw : ℤ) > (dw : ℤ) then (dw : ℤ) - pos.x else (sw : ℤ)
  let srcMaxY : ℤ := if pos.y + (sh : ℤ) > (dh : ℤ) then (dh : ℤ) - pos.y else (sh : ℤ)
  let dstMinX : ℤ := if pos.x < 0 then 0 else pos.x
  let dstMaxX : ℤ := dstMinX + (srcMaxX - srcMinX)
  if dstMaxX < dstMinX then some dst
  else
    (intRange srcMinY (srcMaxY - 1)).foldl
      (fun acc y => acc.bind fun dcur =>
        spliceSeg dcur (usizeOf ((y + pos.y) * (dw : ℤ) * 4 + dstMinX * 4))
          (usizeOf ((y + pos.y) * (dw : ℤ) * 4 + dstMaxX * 4))
          src (usizeOf (y * (sw : ℤ) * 4 + srcMinX * 4))
          (usizeOf (y * (sw : ℤ) * 4 + srcMaxX * 4)))
      (some dst)

/-- A successful single-segment splice, characterized pointwise. -/
theorem spliceSeg_some {β : Type} (dst src : List β) (aa bb cc dd : ℕ)
    (h1 : aa ≤ bb) (h2 : bb ≤ dst.length) (h3 : cc ≤ dd) (h4 : dd ≤ src.length)
    (h5 : bb - aa = dd - cc) :
    ∃ out, spliceSeg dst aa bb src cc dd = some out ∧
      out.length = dst.length ∧
      (∀ k, k < bb - aa → out.get? (aa + k) = src.get? (cc + k)) ∧
      (∀ j, j < aa ∨ bb ≤ j → out.get? j = dst.get? j) := by
  rw [spliceSeg, if_pos ⟨h1, h2, h3, h4, h5⟩]
  have hmidlen : ((src.drop cc).take (dd - cc)).length = bb - aa := by
    rw [List.length_take, List.length_drop]
    omega
  have hsg := splice_get dst ((src.drop cc).take (dd - cc)) aa (bb - aa) (by omega) hmidlen
  have hdrop : aa + (bb - aa) = bb := by omega
  rw [hdrop] at hsg
  obtain ⟨hlen, hmid, hout⟩ := hsg
  refine ⟨_, rfl, hlen, ?_, hout⟩
  intro k hk
  rw [hmid k hk, List.get?_take (by omega), List.get?_drop]

/-- Folding row splices with in-bounds, length-matched, pairwise-ordered
segments never fails, and the result reads row contents from `src` and
everything else from the initial buffer. -/
theorem splice_fold {β : Type} (src : List β) (a b c d : ℤ → ℕ) :
    ∀ (ys : List ℤ) (dst : List β),
      (∀ y ∈ ys, a y ≤ b y ∧ b y ≤ dst.length ∧ c y ≤ d y ∧ d y ≤ src.length ∧
        b y - a y = d y - c y) →
      ys.Pairwise (fun y yy => b y ≤ a yy) →
      ∃ out,
        ys.foldl (fun acc y => acc.bind fun dcur =>
          spliceSeg dcur (a y) (b y) src (c y) (d y)) (some dst) = some out ∧
        out.length = dst.length ∧
        (∀ y ∈ ys, ∀ k, k < b y - a y → out.get? (a y + k) = src.get? (c y + k)) ∧
        (∀ j, (∀ y ∈ ys, j < a y ∨ b y ≤ j) → out.get? j = dst.get? j) := by
  intro ys
  induction ys with
  | nil =>
    intro dst _ _
    exact ⟨dst, rfl, rfl, by simp, fun j _ => rfl⟩
  | cons y ys IH =>
    intro dst hok hpw
    obtain ⟨h1, h2, h3, h4, h5⟩ := hok y (List.mem_cons_self _ _)
    obtain ⟨d1, hd1, hlen1, hmid1, hout1⟩ :=
      spliceSeg_some dst src (a y) (b y) (c y) (d y) h1 h2 h3 h4 h5
    have hstep : (Option.bind (some dst) fun dcur =>
        spliceSeg dcur (a y) (b y) src (c y) (d y)) = some d1 := hd1
    obtain ⟨out, hfold, hlen, hmid, hframe⟩ := IH d1
      (fun yy hyy => by
        obtain ⟨g1, g2, g3, g4, g5⟩ := hok yy (List.mem_cons_of_mem _ hyy)
        exact ⟨g1, by rw [hlen1]; exact g2, g3, g4, g5⟩)
      (List.Pairwise.of_cons hpw)
    refine ⟨out, ?_, by rw [hlen, hlen1], ?_, ?_⟩
    · simp only [List.foldl_cons]
      rw [hstep]
      exact hfold
    · intro yy hyy k hk
      rcases List.mem_cons.mp hyy with rfl | hyy
      · rw [hframe (a yy + k) (fun yz hyz =>
          Or.inl (lt_of_lt_of_le (by omega) (List.rel_of_pairwise_cons hpw hyz)))]
        exact hmid1 k hk
      · exact hmid yy hyy k hk
    · intro j hj
      rw [hframe j (fun yy hyy => hj yy (List.mem_cons_of_mem _ hyy))]
      exact hout1 j (hj y (List.mem_cons_self _ _))

theorem usizeOf_eq (z : ℤ) (h0 : 0 ≤ z) (h1 : z < 2 ^ 64) : ((usizeOf z : ℕ) : ℤ) = z := by
  rw [usizeOf, Int.emod_eq_of_lt h0 h1, Int.toNat_of_nonneg h0]

/-! The clipped-bound arithmetic of `draw_bitmap`, split into small lemmas
so that the final specification stays cheap to elaborate.  Throughout,
`Max.max pos.x 0` is the destination entry column `dst_min_x`,
`Min.min (Max.max (-pos.x) 0) ↑sw` / `Min.min (↑dw - pos.x) ↑sw` the source
column window `src_min.x` / `src_max.x` (similarly for rows), matching the
`if`-forms of the source. -/

theorem bb_bounds (dw dh sw sh : ℕ) (pos : Vec2 ℤ)
    (hret : ¬ (Max.max pos.x 0 + (Min.min ((dw : ℤ) - pos.x) (sw : ℤ) -
      Min.min (Max.max (-pos.x) 0) (sw : ℤ)) < Max.max pos.x 0)) (y : ℤ)
    (hy1 : Min.min (Max.max (-pos.y) 0) (sh : ℤ) ≤ y)
    (hy2 : y ≤ Min.min ((dh : ℤ) - pos.y) (sh : ℤ) - 1) :
    0 ≤ y ∧ y < (sh : ℤ) ∧ 0 ≤ y + pos.y ∧ y + pos.y < (dh : ℤ) ∧
      0 ≤ Max.max pos.x 0 ∧ Max.max pos.x 0 ≤ (dw : ℤ) ∧
      0 ≤ Max.max pos.x 0 + (Min.min ((dw : ℤ) - pos.x) (sw : ℤ) -
        Min.min (Max.max (-pos.x) 0) (sw : ℤ)) ∧
      Max.max pos.x 0 + (Min.min ((dw : ℤ) - pos.x) (sw : ℤ) -
        Min.min (Max.max (-pos.x) 0) (sw : ℤ)) ≤ (dw : ℤ) ∧
      0 ≤ Min.min (Max.max (-pos.x) 0) (sw : ℤ) ∧
      Min.min (Max.max (-pos.x) 0) (sw : ℤ) ≤ (sw : ℤ) ∧
      0 ≤ Min.min ((dw : ℤ) - pos.x) (sw : ℤ) ∧
      Min.min ((dw : ℤ) - pos.x) (sw : ℤ) ≤ (sw : ℤ) := by
  omega

theorem bb_row (w hh : ℕ) (t : ℤ) (h3 : 0 ≤ t) (h4 : t < (hh : ℤ)) :
    0 ≤ t * (w : ℤ) * 4 ∧ t * (w : ℤ) * 4 + (w : ℤ) * 4 ≤ (w : ℤ) * (hh : ℤ) * 4 := by
  constructor
  · exact mul_nonneg (mul_nonneg h3 (by positivity)) (by norm_num)
  · have h := mul_le_mul_of_nonneg_right (show t + 1 ≤ (hh : ℤ) by omega)
      (show (0 : ℤ) ≤ (w : ℤ) * 4 by positivity)
    linarith

theorem bb_cast (dw dh sw sh : ℕ) (pos : Vec2 ℤ)
    (hdlt : dw * dh * 4 < 2 ^ 64) (hslt : sw * sh * 4 < 2 ^ 64)
    (hret : ¬ (Max.max pos.x 0 + (Min.min ((dw : ℤ) - pos.x) (sw : ℤ) -
      Min.min (Max.max (-pos.x) 0) (sw : ℤ)) < Max.max pos.x 0)) (y : ℤ)
    (hy1 : Min.min (Max.max (-pos.y) 0) (sh : ℤ) ≤ y)
    (hy2 : y ≤ Min.min ((dh : ℤ) - pos.y) (sh : ℤ) - 1) :
    ((usizeOf ((y + pos.y) * (dw : ℤ) * 4 + Max.max pos.x 0 * 4) : ℕ) : ℤ) =
        (y + pos.y) * (dw : ℤ) * 4 + Max.max pos.x 0 * 4 ∧
      ((usizeOf ((y + pos.y) * (dw : ℤ) * 4 + (Max.max pos.x 0 +
          (Min.min ((dw : ℤ) - pos.x) (sw : ℤ) -
            Min.min (Max.max (-pos.x) 0) (sw : ℤ))) * 4) : ℕ) : ℤ) =
        (y + pos.y) * (dw : ℤ) * 4 + (Max.max pos.x 0 +
          (Min.min ((dw : ℤ) - pos.x) (sw : ℤ) -
            Min.min (Max.max (-pos.x) 0) (sw : ℤ))) * 4 ∧
      ((usizeOf (y * (sw : ℤ) * 4 + Min.min (Max.max (-pos.x) 0) (sw : ℤ) * 4) : ℕ) : ℤ) =
        y * (sw : ℤ) * 4 + Min.min (Max.max (-pos.x) 0) (sw : ℤ) * 4 ∧
      ((usizeOf (y * (sw : ℤ) * 4 + Min.min ((dw : ℤ) - pos.x) (sw : ℤ) * 4) : ℕ) : ℤ) =
        y * (sw : ℤ) * 4 + Min.min ((dw : ℤ) - pos.x) (sw : ℤ) * 4 := by
  obtain ⟨f1, f2, f3, f4, g1, g2, g3, g4, g5, g6, g7, g8⟩ :=
    bb_bounds dw dh sw sh pos hret y hy1 hy2
  obtain ⟨hD0, hD1⟩ := bb_row dw dh (y + pos.y) f3 f4
  obtain ⟨hS0, hS1⟩ := bb_row sw sh y f1 f2
  have hdlt2 : (dw : ℤ) * (dh : ℤ) * 4 < 2 ^ 64 := by exact_mod_cast hdlt
  have hslt2 : (sw : ℤ) * (sh : ℤ) * 4 < 2 ^ 64 := by exact_mod_cast hslt
  refine ⟨usizeOf_eq _ (by linarith) (by linarith),
    usizeOf_eq _ (by linarith) (by linarith),
    usizeOf_eq _ (by linarith) (by linarith),
    usizeOf_eq _ (by linarith) (by linarith)⟩

theorem bb_ok {β : Type} (dw dh sw sh : ℕ) (pos : Vec2 ℤ) (dst src : List β)
    (hdst : dst.length = dw * dh * 4) (hsrc : src.length = sw * sh * 4)
    (hdlt : dw * dh * 4 < 2 ^ 64) (hslt : sw * sh * 4 < 2 ^ 64)
    (hret : ¬ (Max.max pos.x 0 + (Min.min ((dw : ℤ) - pos.x) (sw : ℤ) -
      Min.min (Max.max (-pos.x) 0) (sw : ℤ)) < Max.max pos.x 0)) :
    ∀ y ∈ intRange (Min.min (Max.max (-pos.y) 0) (sh : ℤ))
        (Min.min ((dh : ℤ) - pos.y) (sh : ℤ) - 1),
      usizeOf ((y + pos.y) * (dw : ℤ) * 4 + Max.max pos.x 0 * 4) ≤
          usizeOf ((y + pos.y) * (dw : ℤ) * 4 + (Max.max pos.x 0 +
            (Min.min ((dw : ℤ) - pos.x) (sw : ℤ) -
              Min.min (Max.max (-pos.x) 0) (sw : ℤ))) * 4) ∧
        usizeOf ((y + pos.y) * (dw : ℤ) * 4 + (Max.max pos.x 0 +
            (Min.min ((dw : ℤ) - pos.x) (sw : ℤ) -
              Min.min (Max.max (-pos.x) 0) (sw : ℤ))) * 4) ≤ dst.length ∧
        usizeOf (y * (sw : ℤ) * 4 + Min.min (Max.max (-pos.x) 0) (sw : ℤ) * 4) ≤
          usizeOf (y * (sw : ℤ) * 4 + Min.min ((dw : ℤ) - pos.x) (sw : ℤ) * 4) ∧
        usizeOf (y * (sw : ℤ) * 4 + Min.min ((dw : ℤ) - pos.x) (sw : ℤ) * 4) ≤
          src.length ∧
        usizeOf ((y + pos.y) * (dw : ℤ) * 4 + (Max.max pos.x 0 +
            (Min.min ((dw : ℤ) - pos.x) (sw : ℤ) -
              Min.min (Max.max (-pos.x) 0) (sw : ℤ))) * 4) -
            usizeOf ((y + pos.y) * (dw : ℤ) * 4 + Max.max pos.x 0 * 4) =
          usizeOf (y * (sw : ℤ) * 4 + Min.min ((dw : ℤ) - pos.x) (sw : ℤ) * 4) -
            usizeOf (y * (sw : ℤ) * 4 + Min.min (Max.max (-pos.x) 0) (sw : ℤ) * 4) := by
  intro y hy
  obtain ⟨hy1, hy2⟩ := mem_intRange.mp hy
  obtain ⟨cA, cB, cC, cD⟩ := bb_cast dw dh sw sh pos hdlt hslt hret y hy1 hy2
  obtain ⟨f1, f2, f3, f4, g1, g2, g3, g4, g5, g6, g7, g8⟩ :=
    bb_bounds dw dh sw sh pos hret y hy1 hy2
  obtain ⟨hD0, hD1⟩ := bb_row dw dh (y + pos.y) f3 f4
  obtain ⟨hS0, hS1⟩ := bb_row sw sh y f1 f2
  have hdstz : ((dst.length : ℕ) : ℤ) = (dw : ℤ) * (dh : ℤ) * 4 := by
    rw [hdst]
    push_cast
    ring
  have hsrcz : ((src.length : ℕ) : ℤ) = (sw : ℤ) * (sh : ℤ) * 4 := by
    rw [hsrc]
    push_cast
    ring
  refine ⟨?_, ?_, ?_, ?_, ?_⟩
  · have g : (↑(usizeOf ((y + pos.y) * (dw : ℤ) * 4 + Max.max pos.x 0 * 4)) : ℤ) ≤
        ↑(usizeOf ((y + pos.y) * (dw : ℤ) * 4 + (Max.max pos.x 0 +
          (Min.min ((dw : ℤ) - pos.x) (sw : ℤ) -
            Min.min (Max.max (-pos.x) 0) (sw : ℤ))) * 4)) := by
      rw [cA, cB]
      linarith
    exact_mod_cast g
  · have g : (↑(usizeOf ((y + pos.y) * (dw : ℤ) * 4 + (Max.max pos.x 0 +
        (Min.min ((dw : ℤ) - pos.x) (sw : ℤ) -
          Min.min (Max.max (-pos.x) 0) (sw : ℤ))) * 4)) : ℤ) ≤ ↑dst.length := by
      rw [cB, hdstz]
      linarith
    exact_mod_cast g
  · have g : (↑(usizeOf (y * (sw : ℤ) * 4 +
        Min.min (Max.max (-pos.x) 0) (sw : ℤ) * 4)) : ℤ) ≤
        ↑(usizeOf (y * (sw : ℤ) * 4 + Min.min ((dw : ℤ) - pos.x) (sw : ℤ) * 4)) := by
      rw [cC, cD]
      linarith
    exact_mod_cast g
  · have g : (↑(usizeOf (y * (sw : ℤ) * 4 +
        Min.min ((dw : ℤ) - pos.x) (sw : ℤ) * 4)) : ℤ) ≤ ↑src.length := by
      rw [cD, hsrcz]
      linarith
    exact_mod_cast g
  · have g5z : (↑(usizeOf ((y + pos.y) * (dw : ℤ) * 4 + (Max.max pos.x 0 +
          (Min.min ((dw : ℤ) - pos.x) (sw : ℤ) -
            Min.min (Max.max (-pos.x) 0) (sw : ℤ))) * 4)) : ℤ) -
          ↑(usizeOf ((y + pos.y) * (dw : ℤ) * 4 + Max.max pos.x 0 * 4)) =
        (↑(usizeOf (y * (sw : ℤ) * 4 + Min.min ((dw : ℤ) - pos.x) (sw : ℤ) * 4)) : ℤ) -
          ↑(usizeOf (y * (sw : ℤ) * 4 + Min.min (Max.max (-pos.x) 0) (sw : ℤ) * 4)) := by
      rw [cA, cB, cC, cD]
      ring
    have gab : (↑(usizeOf ((y + pos.y) * (dw : ℤ) * 4 + Max.max pos.x 0 * 4)) : ℤ) ≤
        ↑(usizeOf ((y + pos.y) * (dw : ℤ) * 4 + (Max.max pos.x 0 +
          (Min.min ((dw : ℤ) - pos.x) (sw : ℤ) -
            Min.min (Max.max (-pos.x) 0) (sw : ℤ))) * 4)) := by
      rw [cA, cB]
      linarith
    have gcd : (↑(usizeOf (y * (sw : ℤ) * 4 +
        Min.min (Max.max (-pos.x) 0) (sw : ℤ) * 4)) : ℤ) ≤
        ↑(usizeOf (y * (sw : ℤ) * 4 + Min.min ((dw : ℤ) - pos.x) (sw : ℤ) * 4)) := by
      rw [cC, cD]
      linarith
    omega

theorem bb_pw (dw dh sw sh : ℕ) (pos : Vec2 ℤ)
    (hdlt : dw * dh * 4 < 2 ^ 64) (hslt : sw * sh * 4 < 2 ^ 64)
    (hret : ¬ (Max.max pos.x 0 + (Min.min ((dw : ℤ) - pos.x) (sw : ℤ) -
      Min.min (Max.max (-pos.x) 0) (sw : ℤ)) < Max.max pos.x 0)) :
    (intRange (Min.min (Max.max (-pos.y) 0) (sh : ℤ))
        (Min.min ((dh : ℤ) - pos.y) (sh : ℤ) - 1)).Pairwise (fun y yy =>
      usizeOf ((y + pos.y) * (dw : ℤ) * 4 + (Max.max pos.x 0 +
          (Min.min ((dw : ℤ) - pos.x) (sw : ℤ) -
            Min.min (Max.max (-pos.x) 0) (sw : ℤ))) * 4) ≤
        usizeOf ((yy + pos.y) * (dw : ℤ) * 4 + Max.max pos.x 0 * 4)) := by
  refine List.Pairwise.imp_of_mem ?_ (intRange_pairwise _ _)
  intro y yy hy hyy hlt
  obtain ⟨hy1, hy2⟩ := mem_intRange.mp hy
  obtain ⟨hyy1, hyy2⟩ := mem_intRange.mp hyy
  obtain ⟨cA, cB, cC, cD⟩ := bb_cast dw dh sw sh pos hdlt hslt hret y hy1 hy2
  obtain ⟨cA2, cB2, cC2, cD2⟩ := bb_cast dw dh sw sh pos hdlt hslt hret yy hyy1 hyy2
  obtain ⟨f1, f2, f3, f4, g1, g2, g3, g4, g5, g6, g7, g8⟩ :=
    bb_bounds dw dh sw sh pos hret y hy1 hy2
  have h := mul_le_mul_of_nonneg_right (show y + pos.y + 1 ≤ yy + pos.y by omega)
    (show (0 : ℤ) ≤ (dw : ℤ) * 4 by positivity)
  have g : (↑(usizeOf ((y + pos.y) * (dw : ℤ) * 4 + (Max.max pos.x 0 +
      (Min.min ((dw : ℤ) - pos.x) (sw : ℤ) -
        Min.min (Max.max (-pos.x) 0) (sw : ℤ))) * 4)) : ℤ) ≤
      ↑(usizeOf ((yy + pos.y) * (dw : ℤ) * 4 + Max.max pos.x 0 * 4)) := by
    rw [cB, cA2]
    linarith
  exact_mod_cast g

theorem bb_pixel {β : Type} (dw dh sw sh : ℕ) (pos : Vec2 ℤ) (dst src out : List β)
    (hdlt : dw * dh * 4 < 2 ^ 64) (hslt : sw * sh * 4 < 2 ^ 64)
    (hret : ¬ (Max.max pos.x 0 + (Min.min ((dw : ℤ) - pos.x) (sw : ℤ) -
      Min.min (Max.max (-pos.x) 0) (sw : ℤ)) < Max.max pos.x 0))
    (hmid : ∀ y ∈ intRange (Min.min (Max.max (-pos.y) 0) (sh : ℤ))
        (Min.min ((dh : ℤ) - pos.y) (sh : ℤ) - 1), ∀ k,
      k < usizeOf ((y + pos.y) * (dw : ℤ) * 4 + (Max.max pos.x 0 +
            (Min.min ((dw : ℤ) - pos.x) (sw : ℤ) -
              Min.min (Max.max (-pos.x) 0) (sw : ℤ))) * 4) -
          usizeOf ((y + pos.y) * (dw : ℤ) * 4 + Max.max pos.x 0 * 4) →
      out.get? (usizeOf ((y + pos.y) * (dw : ℤ) * 4 + Max.max pos.x 0 * 4) + k) =
        src.get? (usizeOf (y * (sw : ℤ) * 4 +
          Min.min (Max.max (-pos.x) 0) (sw : ℤ) * 4) + k))
    (hframe : ∀ j, (∀ y ∈ intRange (Min.min (Max.max (-pos.y) 0) (sh : ℤ))
        (Min.min ((dh : ℤ) - pos.y) (sh : ℤ) - 1),
      j < usizeOf ((y + pos.y) * (dw : ℤ) * 4 + Max.max pos.x 0 * 4) ∨
        usizeOf ((y + pos.y) * (dw : ℤ) * 4 + (Max.max pos.x 0 +
          (Min.min ((dw : ℤ) - pos.x) (sw : ℤ) -
            Min.min (Max.max (-pos.x) 0) (sw : ℤ))) * 4) ≤ j) →
      out.get? j = dst.get? j) :
    ∀ (x yD : ℤ) (k : ℕ), 0 ≤ x → x < (dw : ℤ) → 0 ≤ yD → yD < (dh : ℤ) → k < 4 →
      (0 ≤ x - pos.x → x - pos.x < (sw : ℤ) → 0 ≤ yD - pos.y → yD - pos.y < (sh : ℤ) →
        out.get? ((yD.toNat * dw + x.toNat) * 4 + k) =
          src.get? (((yD - pos.y).toNat * sw + (x - pos.x).toNat) * 4 + k)) ∧
      (¬(0 ≤ x - pos.x ∧ x - pos.x < (sw : ℤ) ∧ 0 ≤ yD - pos.y ∧ yD - pos.y < (sh : ℤ)) →
        out.get? ((yD.toNat * dw + x.toNat) * 4 + k) =
          dst.get? ((yD.toNat * dw + x.toNat) * 4 + k)) := by
  intro x yD k hx0 hx1 hy0 hy1 hk
  have hjcast : (((yD.toNat * dw + x.toNat) * 4 + k : ℕ) : ℤ) =
      yD * (dw : ℤ) * 4 + x * 4 + k := by
    push_cast [Int.toNat_of_nonneg hy0, Int.toNat_of_nonneg hx0]
    ring
  constructor
  · intro ho1 ho2 ho3 ho4
    have hymem : yD - pos.y ∈ intRange (Min.min (Max.max (-pos.y) 0) (sh : ℤ))
        (Min.min ((dh : ℤ) - pos.y) (sh : ℤ) - 1) :=
      mem_intRange.mpr ⟨by omega, by omega⟩
    obtain ⟨cA, cB, cC, cD⟩ := bb_cast dw dh sw sh pos hdlt hslt hret (yD - pos.y)
      (by omega) (by omega)
    have hxDn : Max.max pos.x 0 ≤ x := by omega
    have hxDx : x < Max.max pos.x 0 + (Min.min ((dw : ℤ) - pos.x) (sw : ℤ) -
        Min.min (Max.max (-pos.x) 0) (sw : ℤ)) := by omega
    have hkkz : (((x - Max.max pos.x 0).toNat * 4 + k : ℕ) : ℤ) =
        (x - Max.max pos.x 0) * 4 + k := by
      push_cast [Int.toNat_of_nonneg (show (0 : ℤ) ≤ x - Max.max pos.x 0 by omega)]
      ring
    have hjsplit : (yD.toNat * dw + x.toNat) * 4 + k =
        usizeOf ((yD - pos.y + pos.y) * (dw : ℤ) * 4 + Max.max pos.x 0 * 4) +
          ((x - Max.max pos.x 0).toNat * 4 + k) := by
      have hz : (((yD.toNat * dw + x.toNat) * 4 + k : ℕ) : ℤ) =
          ↑(usizeOf ((yD - pos.y + pos.y) * (dw : ℤ) * 4 + Max.max pos.x 0 * 4)) +
            ↑((x - Max.max pos.x 0).toNat * 4 + k) := by
        rw [hjcast, cA, hkkz]
        ring
      exact_mod_cast hz
    have hzdiff : (↑(usizeOf ((yD - pos.y + pos.y) * (dw : ℤ) * 4 + (Max.max pos.x 0 +
          (Min.min ((dw : ℤ) - pos.x) (sw : ℤ) -
            Min.min (Max.max (-pos.x) 0) (sw : ℤ))) * 4)) : ℤ) -
          ↑(usizeOf ((yD - pos.y + pos.y) * (dw : ℤ) * 4 + Max.max pos.x 0 * 4)) =
        (Min.min ((dw : ℤ) - pos.x) (sw : ℤ) -
          Min.min (Max.max (-pos.x) 0) (sw : ℤ)) * 4 := by
      rw [cA, cB]
      ring
    have hkklt : (x - Max.max pos.x 0).toNat * 4 + k <
        usizeOf ((yD - pos.y + pos.y) * (dw : ℤ) * 4 + (Max.max pos.x 0 +
          (Min.min ((dw : ℤ) - pos.x) (sw : ℤ) -
            Min.min (Max.max (-pos.x) 0) (sw : ℤ))) * 4) -
          usizeOf ((yD - pos.y + pos.y) * (dw : ℤ) * 4 + Max.max pos.x 0 * 4) := by
      omega
    rw [hjsplit]
    rw [hmid (yD - pos.y) hymem ((x - Max.max pos.x 0).toNat * 4 + k) hkklt]
    congr 1
    have hsnx : Min.min (Max.max (-pos.x) 0) (sw : ℤ) = -pos.x + Max.max pos.x 0 := by
      omega
    have htgt : ((((yD - pos.y).toNat * sw + (x - pos.x).toNat) * 4 + k : ℕ) : ℤ) =
        (yD - pos.y) * (sw : ℤ) * 4 + (x - pos.x) * 4 + k := by
      push_cast [Int.toNat_of_nonneg ho3, Int.toNat_of_nonneg ho1]
      ring
    have hz : ((usizeOf ((yD - pos.y) * (sw : ℤ) * 4 +
          Min.min (Max.max (-pos.x) 0) (sw : ℤ) * 4) +
          ((x - Max.max pos.x 0).toNat * 4 + k) : ℕ) : ℤ) =
        ↑(((yD - pos.y).toNat * sw + (x - pos.x).toNat) * 4 + k) := by
      rw [Nat.cast_add, cC, hkkz, htgt, hsnx]
      ring
    exact_mod_cast hz
  · intro hno
    apply hframe
    intro y hy
    obtain ⟨hy1, hy2⟩ := mem_intRange.mp hy
    obtain ⟨cA, cB, cC, cD⟩ := bb_cast dw dh sw sh pos hdlt hslt hret y hy1 hy2
    obtain ⟨f1, f2, f3, f4, g1, g2, g3, g4, g5, g6, g7, g8⟩ :=
      bb_bounds dw dh sw sh pos hret y hy1 hy2
    rcases lt_trichotomy (y + pos.y) yD with hlt | heq | hgt
    · refine Or.inr ?_
      have h := mul_le_mul_of_nonneg_right (show y + pos.y + 1 ≤ yD by omega)
        (show (0 : ℤ) ≤ (dw : ℤ) * 4 by positivity)
      have g : (↑(usizeOf ((y + pos.y) * (dw : ℤ) * 4 + (Max.max pos.x 0 +
          (Min.min ((dw : ℤ) - pos.x) (sw : ℤ) -
            Min.min (Max.max (-pos.x) 0) (sw : ℤ))) * 4)) : ℤ) ≤
          ↑((yD.toNat * dw + x.toNat) * 4 + k) := by
        rw [cB, hjcast]
        linarith
      exact_mod_cast g
    · have hxviol : x < Max.max pos.x 0 ∨
          Max.max pos.x 0 + (Min.min ((dw : ℤ) - pos.x) (sw : ℤ) -
            Min.min (Max.max (-pos.x) 0) (sw : ℤ)) ≤ x := by
        by_cases hv : 0 ≤ x - pos.x ∧ x - pos.x < (sw : ℤ)
        · exact absurd ⟨hv.1, hv.2, by omega, by omega⟩ hno
        · omega
      have hsubst : (y + pos.y) * (dw : ℤ) * 4 = yD * (dw : ℤ) * 4 := by
        rw [heq]
      rcases hxviol with hxl | hxr
      · refine Or.inl ?_
        have g : (↑((yD.toNat * dw + x.toNat) * 4 + k) : ℤ) <
            ↑(usizeOf ((y + pos.y) * (dw : ℤ) * 4 + Max.max pos.x 0 * 4)) := by
          rw [cA, hjcast]
          linarith
        exact_mod_cast g
      · refine Or.inr ?_
        have g : (↑(usizeOf ((y + pos.y) * (dw : ℤ) * 4 + (Max.max pos.x 0 +
            (Min.min ((dw : ℤ) - pos.x) (sw : ℤ) -
              Min.min (Max.max (-pos.x) 0) (sw : ℤ))) * 4)) : ℤ) ≤
            ↑((yD.toNat * dw + x.toNat) * 4 + k) := by
          rw [cB, hjcast]
          linarith
        exact_mod_cast g
    · refine Or.inl ?_
      have h := mul_le_mul_of_nonneg_right (show yD + 1 ≤ y + pos.y by omega)
        (show (0 : ℤ) ≤ (dw : ℤ) * 4 by positivity)
      have g : (↑((yD.toNat * dw + x.toNat) * 4 + k) : ℤ) <
          ↑(usizeOf ((y + pos.y) * (dw : ℤ) * 4 + Max.max pos.x 0 * 4)) := by
        rw [cA, hjcast]
        linarith
      exact_mod_cast g

/-- C6: the blit never panics and copies exactly the overlapping rectangle:
the output keeps the destination's length, every destination pixel `(x, y)`
with `(x - pos.x, y - pos.y)` inside the source receives the corresponding
source pixel's bytes, and every other destination byte is unchanged.  This
covers the claim's three scenarios: source fully outside (the overlap is
empty, nothing changes, no panic), offset `(0,0)` with equal dimensions
(every pixel is in the overlap, the destination becomes the source), and
partial offsets (exactly the overlap rectangle is copied).  Hypotheses:
well-formed buffer lengths and buffers small enough that the `usize` byte
indices do not wrap. -/
theorem draw_bitmap_spec {β : Type} (dw dh sw sh : ℕ) (dst src : List β) (pos : Vec2 ℤ)
    (hdst : dst.length = dw * dh * 4) (hsrc : src.length = sw * sh * 4)
    (hdlt : dw * dh * 4 < 2 ^ 64) (hslt : sw * sh * 4 < 2 ^ 64) :
    ∃ out, draw_bitmap dw dh sw sh dst src pos = some out ∧
      out.length = dst.length ∧
      (∀ (x yD : ℤ) (k : ℕ), 0 ≤ x → x < (dw : ℤ) → 0 ≤ yD → yD < (dh : ℤ) → k < 4 →
        (0 ≤ x - pos.x → x - pos.x < (sw : ℤ) → 0 ≤ yD - pos.y → yD - pos.y < (sh : ℤ) →
          out.get? ((yD.toNat * dw + x.toNat) * 4 + k) =
            src.get? (((yD - pos.y).toNat * sw + (x - pos.x).toNat) * 4 + k)) ∧
        (¬(0 ≤ x - pos.x ∧ x - pos.x < (sw : ℤ) ∧ 0 ≤ yD - pos.y ∧ yD - pos.y < (sh : ℤ)) →
          out.get? ((yD.toNat * dw + x.toNat) * 4 + k) =
            dst.get? ((yD.toNat * dw + x.toNat) * 4 + k))) := by
  have e1 : (if pos.x < 0 then -pos.x else 0) = Max.max (-pos.x) 0 := by
    split_ifs with h <;> omega
  have e2 : (if pos.y < 0 then -pos.y else 0) = Max.max (-pos.y) 0 := by
    split_ifs with h <;> omega
  have e3 : (if pos.x + (sw : ℤ) > (dw : ℤ) then (dw : ℤ) - pos.x else (sw : ℤ)) =
      Min.min ((dw : ℤ) - pos.x) (sw : ℤ) := by
    split_ifs with h <;> omega
  have e4 : (if pos.y + (sh : ℤ) > (dh : ℤ) then (dh : ℤ) - pos.y else (sh : ℤ)) =
      Min.min ((dh : ℤ) - pos.y) (sh : ℤ) := by
    split_ifs with h <;> omega
  have e5 : (if pos.x < 0 then 0 else pos.x) = Max.max pos.x 0 := by
    split_ifs with h <;> omega
  rw [draw_bitmap, e1, e2, e3, e4, e5]
  by_cases hret : Max.max pos.x 0 + (Min.min ((dw : ℤ) - pos.x) (sw : ℤ) -
      Min.min (Max.max (-pos.x) 0) (sw : ℤ)) < Max.max pos.x 0
  · rw [if_pos hret]
    refine ⟨dst, rfl, rfl, ?_⟩
    intro x yD k hx0 hx1 hy0 hy1 hk
    exact ⟨fun ho1 ho2 ho3 ho4 => absurd hret (by omega), fun hno => rfl⟩
  · rw [if_neg hret]
    obtain ⟨out, hfold, hlen, hmid, hframe⟩ :=
      splice_fold src
        (fun y => usizeOf ((y + pos.y) * (dw : ℤ) * 4 + Max.max pos.x 0 * 4))
        (fun y => usizeOf ((y + pos.y) * (dw : ℤ) * 4 + (Max.max pos.x 0 +
          (Min.min ((dw : ℤ) - pos.x) (sw : ℤ) -
            Min.min (Max.max (-pos.x) 0) (sw : ℤ))) * 4))
        (fun y => usizeOf (y * (sw : ℤ) * 4 + Min.min (Max.max (-pos.x) 0) (sw : ℤ) * 4))
        (fun y => usizeOf (y * (sw : ℤ) * 4 + Min.min ((dw : ℤ) - pos.x) (sw : ℤ) * 4))
        (intRange (Min.min (Max.max (-pos.y) 0) (sh : ℤ))
          (Min.min ((dh : ℤ) - pos.y) (sh : ℤ) - 1)) dst
        (bb_ok dw dh sw sh pos dst src hdst hsrc hdlt hslt hret)
        (bb_pw dw dh sw sh pos hdlt hslt hret)
    exact ⟨out, hfold, hlen,
      bb_pixel dw dh sw sh pos dst src out hdlt hslt hret hmid hframe⟩

/-- Witness instantiating the blit specification: a `1x1` source pasted at
offset `(1, 1)` onto a `2x2` destination lands in the destination's pixel
`(1, 1)` (bytes 12..16), and byte 0 is untouched. -/
theorem draw_bitmap_spec_witness :
    ∃ out, draw_bitmap 2 2 1 1 (List.replicate 16 (0 : ℕ)) [7, 7, 7, 7] ⟨1, 1⟩ =
        some out ∧
      out.get? 12 = some 7 ∧ out.get? 0 = some 0 := by
  obtain ⟨out, hsome, hlen, hpix⟩ :=
    draw_bitmap_spec 2 2 1 1 (List.replicate 16 (0 : ℕ)) [7, 7, 7, 7] ⟨1, 1⟩
      (by simp) (by simp) (by norm_num) (by norm_num)
  obtain ⟨hov, -⟩ := hpix 1 1 0 (by norm_num) (by norm_num) (by norm_num) (by norm_num)
    (by norm_num)
  have h12 := hov (by norm_num) (by norm_num) (by norm_num) (by norm_num)
  obtain ⟨-, hun⟩ := hpix 0 0 0 (by norm_num) (by norm_num) (by norm_num) (by norm_num)
    (by norm_num)
  have h0 := hun (by norm_num)
  refine ⟨out, hsome, ?_, ?_⟩
  · simpa using h12
  · simpa using h0

end Rasterizer
